import Mathlib

/-!
Verification of the Pis binary codec (`types/encoding.go`).

Byte streams are modelled as `List Nat` with each element a byte value.
Encoders are pure functions producing byte lists; decoders consume a byte
list and return the decoded value together with the unread remainder, or
`none` when the stream is malformed (the Go decoder's sticky error state).
-/

set_option maxRecDepth 10000

/-- A byte stream: each element is one byte (values `< 256` in real data). -/
abbrev Bytes := List Nat

/-! ### Primitive encoder/decoder (modelled from the spec)

Modelled from the spec: the `encoding` package of this repository
(`Encoder.WriteUint64`, `WriteInt`, `WritePrefixedBytes`, `Decoder.ReadFull`,
`NextUint64`, `NextPrefix`, `ReadPrefixedBytes`) is not part of the given
sources.  The spec states: integers are little-endian 8-byte; sequences and
byte strings carry an 8-byte count/length prefix; decoding reads exactly the
declared lengths. -/

/-- Modelled from the spec: `WriteUint64` emits the 8 little-endian bytes of
a 64-bit integer (`WriteInt` delegates to it). -/
def encU64 (n : Nat) : Bytes :=
  (List.range 8).map (fun i => n / 256 ^ i % 256)

/-- Little-endian value of a byte list. -/
def leVal (b : Bytes) : Nat :=
  b.foldr (fun d acc => d + 256 * acc) 0

/-- Modelled from the spec: `ReadFull` reads exactly `n` bytes, failing on a
truncated stream. -/
def readBytes (n : Nat) (s : Bytes) : Option (Bytes × Bytes) :=
  if n ≤ s.length then some (s.take n, s.drop n) else none

/-- Modelled from the spec: `NextUint64` reads 8 bytes, little-endian. -/
def decU64 (s : Bytes) : Option (Nat × Bytes) :=
  (readBytes 8 s).map (fun p => (leVal p.1, p.2))

/-- Modelled from the spec: `WritePrefixedBytes` emits an 8-byte length
prefix followed by the raw bytes. -/
def encPrefixedBytes (b : Bytes) : Bytes :=
  encU64 b.length ++ b

/-- Modelled from the spec: `ReadPrefixedBytes` reads an 8-byte length
prefix and then that many raw bytes. -/
def decPrefixedBytes (s : Bytes) : Option (Bytes × Bytes) :=
  (decU64 s).bind (fun p => readBytes p.1 p.2)

/-- Concatenation of the encodings of a sequence's elements (the body that
follows a count prefix). -/
def encSeq (f : α → Bytes) : List α → Bytes
  | [] => []
  | x :: xs => f x ++ encSeq f xs

/-- An 8-byte count prefix followed by each element's encoding. -/
def encPrefixedSeq (f : α → Bytes) (xs : List α) : Bytes :=
  encU64 xs.length ++ encSeq f xs

/-- Decode `n` consecutive elements with `dec`. -/
def decCount (dec : Bytes → Option (α × Bytes)) : Nat → Bytes → Option (List α × Bytes)
  | 0, s => some ([], s)
  | n + 1, s =>
      (dec s).bind (fun p =>
        (decCount dec n p.2).map (fun q => (p.1 :: q.1, q.2)))

/-- Modelled from the spec: `NextPrefix` reads an 8-byte element count and
the decoder then populates exactly that many freshly allocated elements. -/
def decPrefixedSeq (dec : Bytes → Option (α × Bytes)) (s : Bytes) : Option (List α × Bytes) :=
  (decU64 s).bind (fun p => decCount dec p.1 p.2)

/-- Modelled from the spec: `WriteBool` emits one byte, 1 for true, 0 for
false. -/
def encBool (b : Bool) : Bytes :=
  [if b then 1 else 0]

/-- Decode one byte as a boolean, true exactly when the byte equals 1 (the
`buf[0] == 1` test in `CoveredFields.UnmarshalPis`). -/
def decBool (s : Bytes) : Option (Bool × Bytes) :=
  (readBytes 1 s).map (fun p => (decide (p.1 = [1]), p.2))

/-! ### Primitive lemmas -/

theorem encU64_length (n : Nat) : (encU64 n).length = 8 := by
  simp [encU64]

theorem readBytes_append {l : Bytes} {n : Nat} (h : l.length = n) (r : Bytes) :
    readBytes n (l ++ r) = some (l, r) := by
  subst h
  simp [readBytes, List.take_left, List.drop_left]

theorem leVal_encU64 (n : Nat) : leVal (encU64 n) = n % 2 ^ 64 := by
  have key : ∀ k m : Nat, leVal (List.map (fun i => m / 256 ^ i % 256) (List.range k)) = m % 256 ^ k := by
    intro k
    induction k with
    | zero => intro m; simp [leVal, Nat.mod_one]
    | succ k ih =>
      intro m
      rw [List.range_succ_eq_map]
      simp only [List.map_cons, List.map_map]
      have hcomp : ((fun i => m / 256 ^ i % 256) ∘ Nat.succ) = (fun i => m / 256 / 256 ^ i % 256) := by
        funext i
        simp [Function.comp, Nat.pow_succ, Nat.div_div_eq_div_mul, Nat.mul_comm]
      rw [hcomp]
      simp only [leVal, List.foldr_cons] at ih ⊢
      rw [ih (m / 256)]
      have e : (256 : Nat) ^ (k + 1) = 256 * 256 ^ k := by rw [Nat.pow_succ, Nat.mul_comm]
      rw [e]
      have hdiv := Nat.mod_mul_right_div_self m 256 (256 ^ k)
      have hmod : m % (256 * 256 ^ k) % 256 = m % 256 :=
        Nat.mod_mod_of_dvd m ⟨256 ^ k, rfl⟩
      have hx := Nat.div_add_mod (m % (256 * 256 ^ k)) 256
      simp only [Nat.pow_zero, Nat.div_one]
      omega
  rw [encU64, key 8 n]
  norm_num

theorem decU64_append (n : Nat) (r : Bytes) :
    decU64 (encU64 n ++ r) = some (n % 2 ^ 64, r) := by
  rw [decU64, readBytes_append (encU64_length n)]
  simp [leVal_encU64]

theorem decU64_append_of_lt {n : Nat} (h : n < 2 ^ 64) (r : Bytes) :
    decU64 (encU64 n ++ r) = some (n, r) := by
  rw [decU64_append, Nat.mod_eq_of_lt h]

theorem decPrefixedBytes_append {b : Bytes} (h : b.length < 2 ^ 64) (r : Bytes) :
    decPrefixedBytes (encPrefixedBytes b ++ r) = some (b, r) := by
  rw [decPrefixedBytes, encPrefixedBytes, List.append_assoc, decU64_append_of_lt h]
  simp [readBytes_append rfl]

theorem decCount_encSeq {dec : Bytes → Option (α × Bytes)} {enc : α → Bytes} {xs : List α}
    (hx : ∀ x ∈ xs, ∀ r, dec (enc x ++ r) = some (x, r)) (r : Bytes) :
    decCount dec xs.length (encSeq enc xs ++ r) = some (xs, r) := by
  induction xs with
  | nil => simp [encSeq, decCount]
  | cons x xs ih =>
    simp only [encSeq, List.length_cons, decCount, List.append_assoc]
    rw [hx x (by simp) _]
    simp only [Option.some_bind]
    rw [ih (fun y hy s => hx y (by simp [hy]) s)]
    simp

theorem decPrefixedSeq_append {dec : Bytes → Option (α × Bytes)} {enc : α → Bytes} {xs : List α}
    (hlen : xs.length < 2 ^ 64)
    (hx : ∀ x ∈ xs, ∀ r, dec (enc x ++ r) = some (x, r)) (r : Bytes) :
    decPrefixedSeq dec (encPrefixedSeq enc xs ++ r) = some (xs, r) := by
  rw [decPrefixedSeq, encPrefixedSeq, List.append_assoc, decU64_append_of_lt hlen]
  simp only [Option.some_bind]
  exact decCount_encSeq hx r

theorem decBool_append (b : Bool) (r : Bytes) :
    decBool (encBool b ++ r) = some (b, r) := by
  cases b <;> simp [decBool, encBool, readBytes]

theorem encSeq_length (f : α → Bytes) (xs : List α) :
    (encSeq f xs).length = (xs.map (fun x => (f x).length)).sum := by
  induction xs with
  | nil => simp [encSeq]
  | cons x xs ih => simp [encSeq, ih]

theorem encPrefixedSeq_length (f : α → Bytes) (xs : List α) :
    (encPrefixedSeq f xs).length = 8 + (xs.map (fun x => (f x).length)).sum := by
  simp [encPrefixedSeq, encU64_length, encSeq_length]

theorem encPrefixedBytes_length (b : Bytes) :
    (encPrefixedBytes b).length = 8 + b.length := by
  simp [encPrefixedBytes, encU64_length]

/-! ### Currency

Modelled from the spec: `Currency` wraps a non-negative arbitrary-precision
integer (`i`), modelled here as `Nat`.  `MarshalPis` extracts the minimal
big-endian magnitude bytes from the big integer's word array (the
`bits[i/_S]>>(uint(i%_S)*8)` loop); over `Nat` this is the base-256 digit
expansion with no leading zero byte.  `SetBytes` (used by `UnmarshalPis`)
interprets a byte slice as a big-endian magnitude. -/

structure Currency where
  i : Nat
deriving DecidableEq, Repr

/-- Little-endian base-256 digits of `n`, computed with structural fuel so
that the definition reduces in the kernel.  `fuel ≥ n` suffices since the
digit count never exceeds `n`. -/
def natBytesLEAux : Nat → Nat → List Nat
  | 0, _ => []
  | fuel + 1, n => if n = 0 then [] else n % 256 :: natBytesLEAux fuel (n / 256)

/-- Little-endian base-256 digits of `n` (no trailing zero digit). -/
def natBytesLE (n : Nat) : List Nat := natBytesLEAux n n

/-- Minimal big-endian magnitude bytes of `n` (no leading zero byte);
the byte sequence `Currency.MarshalPis` writes after the length prefix. -/
def natBytesBE (n : Nat) : Bytes := (natBytesLE n).reverse

/-- Big-endian value of a byte list: the semantics of `big.Int.SetBytes`. -/
def beVal (b : Bytes) : Nat := b.foldl (fun acc d => acc * 256 + d) 0

/-- Number of significant bytes of the magnitude: `Currency.MarshalPisSize`
counts `len(bits) * _S` minus the trailing zero bytes of the word array,
which over `Nat` is the base-256 digit count (with fuel as above). -/
def natByteLenAux : Nat → Nat → Nat
  | 0, _ => 0
  | fuel + 1, n => if n = 0 then 0 else natByteLenAux fuel (n / 256) + 1

/-- Number of significant bytes of the magnitude of `n`. -/
def natByteLen (n : Nat) : Nat := natByteLenAux n n

theorem natBytesLEAux_stable :
    ∀ f f' n : Nat, n ≤ f → n ≤ f' → natBytesLEAux f n = natBytesLEAux f' n := by
  intro f
  induction f with
  | zero =>
    intro f' n hf hf'
    interval_cases n
    cases f' <;> simp [natBytesLEAux]
  | succ f ih =>
    intro f' n hf hf'
    cases f' with
    | zero =>
      interval_cases n
      simp [natBytesLEAux]
    | succ f' =>
      by_cases hn : n = 0
      · simp [natBytesLEAux, hn]
      · simp only [natBytesLEAux, hn, if_false]
        have hlt : n / 256 < n := Nat.div_lt_self (Nat.pos_of_ne_zero hn) (by decide)
        exact congrArg _ (ih f' (n / 256) (by omega) (by omega))

theorem natBytesLE_zero : natBytesLE 0 = [] := rfl

theorem natBytesLE_succ {n : Nat} (h : n ≠ 0) :
    natBytesLE n = n % 256 :: natBytesLE (n / 256) := by
  obtain ⟨m, rfl⟩ : ∃ m, n = m + 1 := ⟨n - 1, by omega⟩
  show natBytesLEAux (m + 1) (m + 1) = (m + 1) % 256 :: natBytesLE ((m + 1) / 256)
  rw [natBytesLEAux, if_neg h]
  congr 1
  have hlt : (m + 1) / 256 < m + 1 := Nat.div_lt_self (by omega) (by decide)
  exact natBytesLEAux_stable m ((m + 1) / 256) ((m + 1) / 256) (by omega) le_rfl

theorem natBytesBE_zero : natBytesBE 0 = [] := rfl

theorem natBytesBE_succ {n : Nat} (h : n ≠ 0) :
    natBytesBE n = natBytesBE (n / 256) ++ [n % 256] := by
  rw [natBytesBE, natBytesLE_succ h]
  simp [natBytesBE]

theorem beVal_natBytesBE (n : Nat) : beVal (natBytesBE n) = n := by
  induction n using Nat.strong_induction_on with
  | _ n ih =>
    by_cases hn : n = 0
    · subst hn; rfl
    · rw [natBytesBE_succ hn]
      have hlt : n / 256 < n := Nat.div_lt_self (Nat.pos_of_ne_zero hn) (by decide)
      have := ih (n / 256) hlt
      simp only [beVal, List.foldl_append, List.foldl_cons, List.foldl_nil] at this ⊢
      rw [this]
      omega

theorem natByteLenAux_stable :
    ∀ f f' n : Nat, n ≤ f → n ≤ f' → natByteLenAux f n = natByteLenAux f' n := by
  intro f
  induction f with
  | zero =>
    intro f' n hf hf'
    interval_cases n
    cases f' <;> simp [natByteLenAux]
  | succ f ih =>
    intro f' n hf hf'
    cases f' with
    | zero =>
      interval_cases n
      simp [natByteLenAux]
    | succ f' =>
      by_cases hn : n = 0
      · simp [natByteLenAux, hn]
      · simp only [natByteLenAux, hn, if_false]
        have hlt : n / 256 < n := Nat.div_lt_self (Nat.pos_of_ne_zero hn) (by decide)
        exact congrArg (· + 1) (ih f' (n / 256) (by omega) (by omega))

theorem natByteLen_succ {n : Nat} (h : n ≠ 0) :
    natByteLen n = natByteLen (n / 256) + 1 := by
  obtain ⟨m, rfl⟩ : ∃ m, n = m + 1 := ⟨n - 1, by omega⟩
  show natByteLenAux (m + 1) (m + 1) = natByteLen ((m + 1) / 256) + 1
  rw [natByteLenAux, if_neg h]
  congr 1
  have hlt : (m + 1) / 256 < m + 1 := Nat.div_lt_self (by omega) (by decide)
  exact natByteLenAux_stable m ((m + 1) / 256) ((m + 1) / 256) (by omega) le_rfl

theorem natByteLen_eq_length (n : Nat) : natByteLen n = (natBytesBE n).length := by
  induction n using Nat.strong_induction_on with
  | _ n ih =>
    by_cases hn : n = 0
    · subst hn; rfl
    · have hlt : n / 256 < n := Nat.div_lt_self (Nat.pos_of_ne_zero hn) (by decide)
      rw [natByteLen_succ hn, natBytesBE_succ hn, ih (n / 256) hlt]
      simp

theorem natBytesBE_head_ne_zero (n : Nat) : (natBytesBE n).head? ≠ some 0 := by
  induction n using Nat.strong_induction_on with
  | _ n ih =>
    by_cases hn : n = 0
    · subst hn; simp [natBytesBE_zero]
    · rw [natBytesBE_succ hn]
      by_cases hq : n / 256 = 0
      · have hsmall : n < 256 := by
          by_contra hge
          push_neg at hge
          have h1 : 1 ≤ n / 256 := (Nat.one_le_div_iff (by decide)).mpr hge
          omega
        rw [hq, natBytesBE_zero]
        simp only [List.nil_append, List.head?_cons, ne_eq, Option.some.injEq]
        omega
      · have hne : natBytesBE (n / 256) ≠ [] := by
          intro hcontra
          have hval := beVal_natBytesBE (n / 256)
          rw [hcontra] at hval
          exact hq (hval.symm ▸ rfl)
        rw [List.head?_append_of_ne_nil _ hne]
        exact ih (n / 256) (Nat.div_lt_self (Nat.pos_of_ne_zero hn) (by decide))

/-- `Currency.MarshalPis`: writes the significant-byte count as an 8-byte
length prefix (`e.WriteInt(i + 1)`), then the minimal big-endian magnitude
bytes of the internal big integer. -/
def Currency.MarshalPis (c : Currency) : Bytes :=
  encU64 (natBytesBE c.i).length ++ natBytesBE c.i

/-- `Currency.MarshalPisSize`: 8 bytes of length prefix plus the number of
significant magnitude bytes, computed without encoding. -/
def Currency.MarshalPisSize (c : Currency) : Nat :=
  8 + natByteLen c.i

/-- `Currency.UnmarshalPis`: reads a length-prefixed byte string and
interprets it as a big-endian magnitude (`dec.i.SetBytes`). -/
def Currency.UnmarshalPis (s : Bytes) : Option (Currency × Bytes) :=
  (decPrefixedBytes s).map (fun p => (⟨beVal p.1⟩, p.2))

/-- Well-formedness for the codec: the magnitude's byte count fits in the
64-bit length prefix (true of every real `big.Int`). -/
def Currency.WF (c : Currency) : Prop :=
  (natBytesBE c.i).length < 2 ^ 64

instance : DecidablePred Currency.WF := fun c => by
  unfold Currency.WF; infer_instance

theorem currency_rt {c : Currency} (h : c.WF) (r : Bytes) :
    Currency.UnmarshalPis (Currency.MarshalPis c ++ r) = some (c, r) := by
  rw [Currency.UnmarshalPis, Currency.MarshalPis]
  rw [show encU64 (natBytesBE c.i).length ++ natBytesBE c.i ++ r
      = encPrefixedBytes (natBytesBE c.i) ++ r from rfl]
  rw [decPrefixedBytes_append h]
  simp [beVal_natBytesBE]

theorem currency_size_eq (c : Currency) :
    Currency.MarshalPisSize c = (Currency.MarshalPis c).length := by
  rw [Currency.MarshalPisSize, Currency.MarshalPis, natByteLen_eq_length]
  simp [encU64_length]

/-! ### Data model

Modelled from the spec: the struct declarations of the `types` package are
not among the given sources; the fields and their order are reconstructed
from the spec's data model (section 3) and from the field accesses of
`types/encoding.go`.  Fixed-size byte arrays (`crypto.Hash`, `Specifier`,
`UnlockHash`, segments, nonces) are byte lists whose length is fixed by a
well-formedness predicate. -/

/-- Modelled from the spec: hash-derived identifiers and unlock hashes are
fixed-size 32-byte values (`crypto.HashSize`). -/
def HashSize : Nat := 32

/-- Modelled from the spec: the storage-proof data segment is a fixed-size
byte array (`crypto.SegmentSize`); its exact size does not affect any claim. -/
def SegmentSize : Nat := 64

/-- Modelled from the spec: the address checksum keeps the first 6 bytes of
the hash (`UnlockHashChecksumSize`). -/
def UnlockHashChecksumSize : Nat := 6

/-- Modelled from the spec: a `Specifier` is a fixed 16-byte tag. -/
def SpecifierLen : Nat := 16

/-- A Specifier value: 16 bytes in well-formed data. -/
abbrev Specifier := Bytes

/-- An UnlockHash value: 32 bytes in well-formed data. -/
abbrev UnlockHash := Bytes

structure PisPublicKey where
  Algorithm : Specifier
  Key : Bytes
deriving DecidableEq, Repr

structure UnlockConditions where
  Timelock : Nat
  PublicKeys : List PisPublicKey
  SignaturesRequired : Nat
deriving DecidableEq, Repr

structure CoveredFields where
  WholeTransaction : Bool
  PiscoinInputs : List Nat
  PiscoinOutputs : List Nat
  FileContracts : List Nat
  FileContractRevisions : List Nat
  StorageProofs : List Nat
  PisfundInputs : List Nat
  PisfundOutputs : List Nat
  MinerFees : List Nat
  ArbitraryData : List Nat
  TransactionSignatures : List Nat
deriving DecidableEq, Repr

structure PiscoinInput where
  ParentID : Bytes
  UnlockConditions : UnlockConditions
deriving DecidableEq, Repr

structure PiscoinOutput where
  Value : Currency
  UnlockHash : UnlockHash
deriving DecidableEq, Repr

structure PisfundInput where
  ParentID : Bytes
  UnlockConditions : UnlockConditions
  ClaimUnlockHash : UnlockHash
deriving DecidableEq, Repr

structure PisfundOutput where
  Value : Currency
  UnlockHash : UnlockHash
  ClaimStart : Currency
deriving DecidableEq, Repr

structure FileContract where
  FileSize : Nat
  FileMerkleRoot : Bytes
  WindowStart : Nat
  WindowEnd : Nat
  Payout : Currency
  ValidProofOutputs : List PiscoinOutput
  MissedProofOutputs : List PiscoinOutput
  UnlockHash : UnlockHash
  RevisionNumber : Nat
deriving DecidableEq, Repr

structure FileContractRevision where
  ParentID : Bytes
  UnlockConditions : UnlockConditions
  NewRevisionNumber : Nat
  NewFileSize : Nat
  NewFileMerkleRoot : Bytes
  NewWindowStart : Nat
  NewWindowEnd : Nat
  NewValidProofOutputs : List PiscoinOutput
  NewMissedProofOutputs : List PiscoinOutput
  NewUnlockHash : UnlockHash
deriving DecidableEq, Repr

structure StorageProof where
  ParentID : Bytes
  Segment : Bytes
  HashSet : List Bytes
deriving DecidableEq, Repr

structure TransactionSignature where
  ParentID : Bytes
  PublicKeyIndex : Nat
  Timelock : Nat
  CoveredFields : CoveredFields
  Signature : Bytes
deriving DecidableEq, Repr

structure Transaction where
  PiscoinInputs : List PiscoinInput
  PiscoinOutputs : List PiscoinOutput
  FileContracts : List FileContract
  FileContractRevisions : List FileContractRevision
  StorageProofs : List StorageProof
  PisfundInputs : List PisfundInput
  PisfundOutputs : List PisfundOutput
  MinerFees : List Currency
  ArbitraryData : List Bytes
  TransactionSignatures : List TransactionSignature
deriving DecidableEq, Repr

structure Block where
  ParentID : Bytes
  Nonce : Bytes
  Timestamp : Nat
  MinerPayouts : List PiscoinOutput
  Transactions : List Transaction
deriving DecidableEq, Repr

/-! ### Encoders (`MarshalPis`), translated from `types/encoding.go` -/

/-- `PisPublicKey.MarshalPis`: raw 16-byte algorithm tag, then the
length-prefixed key bytes. -/
def PisPublicKey.MarshalPis (spk : PisPublicKey) : Bytes :=
  spk.Algorithm ++ encPrefixedBytes spk.Key

/-- `UnlockConditions.MarshalPis`: timelock, count-prefixed public keys,
signatures-required threshold. -/
def UnlockConditions.MarshalPis (uc : UnlockConditions) : Bytes :=
  encU64 uc.Timelock
    ++ encPrefixedSeq PisPublicKey.MarshalPis uc.PublicKeys
    ++ encU64 uc.SignaturesRequired

/-- `CoveredFields.MarshalPis`: the whole-transaction flag byte, then the
ten index sequences in declared order, each count-prefixed with 8-byte
elements. -/
def CoveredFields.MarshalPis (cf : CoveredFields) : Bytes :=
  encBool cf.WholeTransaction
    ++ encPrefixedSeq encU64 cf.PiscoinInputs
    ++ encPrefixedSeq encU64 cf.PiscoinOutputs
    ++ encPrefixedSeq encU64 cf.FileContracts
    ++ encPrefixedSeq encU64 cf.FileContractRevisions
    ++ encPrefixedSeq encU64 cf.StorageProofs
    ++ encPrefixedSeq encU64 cf.PisfundInputs
    ++ encPrefixedSeq encU64 cf.PisfundOutputs
    ++ encPrefixedSeq encU64 cf.MinerFees
    ++ encPrefixedSeq encU64 cf.ArbitraryData
    ++ encPrefixedSeq encU64 cf.TransactionSignatures

/-- `PiscoinInput.MarshalPis`: raw parent id, then the unlock conditions. -/
def PiscoinInput.MarshalPis (sci : PiscoinInput) : Bytes :=
  sci.ParentID ++ sci.UnlockConditions.MarshalPis

/-- `PiscoinOutput.MarshalPis`: the currency value, then the raw unlock
hash. -/
def PiscoinOutput.MarshalPis (sco : PiscoinOutput) : Bytes :=
  sco.Value.MarshalPis ++ sco.UnlockHash

/-- `PisfundInput.MarshalPis`: raw parent id, unlock conditions, raw claim
unlock hash. -/
def PisfundInput.MarshalPis (sfi : PisfundInput) : Bytes :=
  sfi.ParentID ++ sfi.UnlockConditions.MarshalPis ++ sfi.ClaimUnlockHash

/-- `PisfundOutput.MarshalPis`: value, raw unlock hash, claim-start value. -/
def PisfundOutput.MarshalPis (sfo : PisfundOutput) : Bytes :=
  sfo.Value.MarshalPis ++ sfo.UnlockHash ++ sfo.ClaimStart.MarshalPis

/-- `FileContract.MarshalPis`: file size, raw merkle root, window bounds,
payout, count-prefixed valid and missed proof outputs, raw unlock hash,
revision number. -/
def FileContract.MarshalPis (fc : FileContract) : Bytes :=
  encU64 fc.FileSize
    ++ fc.FileMerkleRoot
    ++ encU64 fc.WindowStart
    ++ encU64 fc.WindowEnd
    ++ fc.Payout.MarshalPis
    ++ encPrefixedSeq PiscoinOutput.MarshalPis fc.ValidProofOutputs
    ++ encPrefixedSeq PiscoinOutput.MarshalPis fc.MissedProofOutputs
    ++ fc.UnlockHash
    ++ encU64 fc.RevisionNumber

/-- `FileContractRevision.MarshalPis`: parent id, unlock conditions, new
revision number, new file size, new merkle root, new window bounds,
count-prefixed new valid and missed proof outputs, new unlock hash. -/
def FileContractRevision.MarshalPis (fcr : FileContractRevision) : Bytes :=
  fcr.ParentID
    ++ fcr.UnlockConditions.MarshalPis
    ++ encU64 fcr.NewRevisionNumber
    ++ encU64 fcr.NewFileSize
    ++ fcr.NewFileMerkleRoot
    ++ encU64 fcr.NewWindowStart
    ++ encU64 fcr.NewWindowEnd
    ++ encPrefixedSeq PiscoinOutput.MarshalPis fcr.NewValidProofOutputs
    ++ encPrefixedSeq PiscoinOutput.MarshalPis fcr.NewMissedProofOutputs
    ++ fcr.NewUnlockHash

/-- `StorageProof.MarshalPis`: raw parent id, raw segment, count-prefixed
raw hashes. -/
def StorageProof.MarshalPis (sp : StorageProof) : Bytes :=
  sp.ParentID ++ sp.Segment ++ encPrefixedSeq (fun hs => hs) sp.HashSet

/-- `TransactionSignature.MarshalPis`: raw parent id, public-key index,
timelock, covered fields, length-prefixed signature bytes. -/
def TransactionSignature.MarshalPis (ts : TransactionSignature) : Bytes :=
  ts.ParentID
    ++ encU64 ts.PublicKeyIndex
    ++ encU64 ts.Timelock
    ++ ts.CoveredFields.MarshalPis
    ++ encPrefixedBytes ts.Signature

/-- `Transaction.marshalPisNoSignatures`: the nine element sequences in
fixed order, excluding signatures. -/
def Transaction.marshalPisNoSignatures (t : Transaction) : Bytes :=
  encPrefixedSeq PiscoinInput.MarshalPis t.PiscoinInputs
    ++ encPrefixedSeq PiscoinOutput.MarshalPis t.PiscoinOutputs
    ++ encPrefixedSeq FileContract.MarshalPis t.FileContracts
    ++ encPrefixedSeq FileContractRevision.MarshalPis t.FileContractRevisions
    ++ encPrefixedSeq StorageProof.MarshalPis t.StorageProofs
    ++ encPrefixedSeq PisfundInput.MarshalPis t.PisfundInputs
    ++ encPrefixedSeq PisfundOutput.MarshalPis t.PisfundOutputs
    ++ encPrefixedSeq Currency.MarshalPis t.MinerFees
    ++ encPrefixedSeq encPrefixedBytes t.ArbitraryData

/-- `Transaction.MarshalPis`: the no-signatures encoding followed by the
count-prefixed signature sequence. -/
def Transaction.MarshalPis (t : Transaction) : Bytes :=
  t.marshalPisNoSignatures
    ++ encPrefixedSeq TransactionSignature.MarshalPis t.TransactionSignatures

/-- `Block.MarshalPis`: raw parent id, raw nonce, timestamp, count-prefixed
miner payouts, count-prefixed transactions. -/
def Block.MarshalPis (b : Block) : Bytes :=
  b.ParentID
    ++ b.Nonce
    ++ encU64 b.Timestamp
    ++ encPrefixedSeq PiscoinOutput.MarshalPis b.MinerPayouts
    ++ encPrefixedSeq Transaction.MarshalPis b.Transactions

/-! ### Decoders (`UnmarshalPis`), translated from `types/encoding.go` -/

/-- `PisPublicKey.UnmarshalPis`: 16 raw algorithm bytes, then
length-prefixed key bytes. -/
def PisPublicKey.UnmarshalPis (s : Bytes) : Option (PisPublicKey × Bytes) :=
  (readBytes SpecifierLen s).bind fun p1 =>
  (decPrefixedBytes p1.2).map fun p2 =>
  (⟨p1.1, p2.1⟩, p2.2)

/-- `UnlockConditions.UnmarshalPis`: timelock, count-prefixed public keys,
signatures-required threshold. -/
def UnlockConditions.UnmarshalPis (s : Bytes) : Option (UnlockConditions × Bytes) :=
  (decU64 s).bind fun p1 =>
  (decPrefixedSeq PisPublicKey.UnmarshalPis p1.2).bind fun p2 =>
  (decU64 p2.2).map fun p3 =>
  (⟨p1.1, p2.1, p3.1⟩, p3.2)

/-- `CoveredFields.UnmarshalPis`: the flag byte, then the ten count-prefixed
index sequences. -/
def CoveredFields.UnmarshalPis (s : Bytes) : Option (CoveredFields × Bytes) :=
  (decBool s).bind fun p0 =>
  (decPrefixedSeq decU64 p0.2).bind fun p1 =>
  (decPrefixedSeq decU64 p1.2).bind fun p2 =>
  (decPrefixedSeq decU64 p2.2).bind fun p3 =>
  (decPrefixedSeq decU64 p3.2).bind fun p4 =>
  (decPrefixedSeq decU64 p4.2).bind fun p5 =>
  (decPrefixedSeq decU64 p5.2).bind fun p6 =>
  (decPrefixedSeq decU64 p6.2).bind fun p7 =>
  (decPrefixedSeq decU64 p7.2).bind fun p8 =>
  (decPrefixedSeq decU64 p8.2).bind fun p9 =>
  (decPrefixedSeq decU64 p9.2).map fun p10 =>
  (⟨p0.1, p1.1, p2.1, p3.1, p4.1, p5.1, p6.1, p7.1, p8.1, p9.1, p10.1⟩, p10.2)

/-- `PiscoinInput.UnmarshalPis`. -/
def PiscoinInput.UnmarshalPis (s : Bytes) : Option (PiscoinInput × Bytes) :=
  (readBytes HashSize s).bind fun p1 =>
  (UnlockConditions.UnmarshalPis p1.2).map fun p2 =>
  (⟨p1.1, p2.1⟩, p2.2)

/-- `PiscoinOutput.UnmarshalPis`. -/
def PiscoinOutput.UnmarshalPis (s : Bytes) : Option (PiscoinOutput × Bytes) :=
  (Currency.UnmarshalPis s).bind fun p1 =>
  (readBytes HashSize p1.2).map fun p2 =>
  (⟨p1.1, p2.1⟩, p2.2)

/-- `PisfundInput.UnmarshalPis`. -/
def PisfundInput.UnmarshalPis (s : Bytes) : Option (PisfundInput × Bytes) :=
  (readBytes HashSize s).bind fun p1 =>
  (UnlockConditions.UnmarshalPis p1.2).bind fun p2 =>
  (readBytes HashSize p2.2).map fun p3 =>
  (⟨p1.1, p2.1, p3.1⟩, p3.2)

/-- `PisfundOutput.UnmarshalPis`. -/
def PisfundOutput.UnmarshalPis (s : Bytes) : Option (PisfundOutput × Bytes) :=
  (Currency.UnmarshalPis s).bind fun p1 =>
  (readBytes HashSize p1.2).bind fun p2 =>
  (Currency.UnmarshalPis p2.2).map fun p3 =>
  (⟨p1.1, p2.1, p3.1⟩, p3.2)

/-- `FileContract.UnmarshalPis`. -/
def FileContract.UnmarshalPis (s : Bytes) : Option (FileContract × Bytes) :=
  (decU64 s).bind fun p1 =>
  (readBytes HashSize p1.2).bind fun p2 =>
  (decU64 p2.2).bind fun p3 =>
  (decU64 p3.2).bind fun p4 =>
  (Currency.UnmarshalPis p4.2).bind fun p5 =>
  (decPrefixedSeq PiscoinOutput.UnmarshalPis p5.2).bind fun p6 =>
  (decPrefixedSeq PiscoinOutput.UnmarshalPis p6.2).bind fun p7 =>
  (readBytes HashSize p7.2).bind fun p8 =>
  (decU64 p8.2).map fun p9 =>
  (⟨p1.1, p2.1, p3.1, p4.1, p5.1, p6.1, p7.1, p8.1, p9.1⟩, p9.2)

/-- `FileContractRevision.UnmarshalPis`. -/
def FileContractRevision.UnmarshalPis (s : Bytes) : Option (FileContractRevision × Bytes) :=
  (readBytes HashSize s).bind fun p1 =>
  (UnlockConditions.UnmarshalPis p1.2).bind fun p2 =>
  (decU64 p2.2).bind fun p3 =>
  (decU64 p3.2).bind fun p4 =>
  (readBytes HashSize p4.2).bind fun p5 =>
  (decU64 p5.2).bind fun p6 =>
  (decU64 p6.2).bind fun p7 =>
  (decPrefixedSeq PiscoinOutput.UnmarshalPis p7.2).bind fun p8 =>
  (decPrefixedSeq PiscoinOutput.UnmarshalPis p8.2).bind fun p9 =>
  (readBytes HashSize p9.2).map fun p10 =>
  (⟨p1.1, p2.1, p3.1, p4.1, p5.1, p6.1, p7.1, p8.1, p9.1, p10.1⟩, p10.2)

/-- `StorageProof.UnmarshalPis`: parent id, segment, count-prefixed raw
32-byte hashes. -/
def StorageProof.UnmarshalPis (s : Bytes) : Option (StorageProof × Bytes) :=
  (readBytes HashSize s).bind fun p1 =>
  (readBytes SegmentSize p1.2).bind fun p2 =>
  (decPrefixedSeq (readBytes HashSize) p2.2).map fun p3 =>
  (⟨p1.1, p2.1, p3.1⟩, p3.2)

/-- `TransactionSignature.UnmarshalPis`. -/
def TransactionSignature.UnmarshalPis (s : Bytes) : Option (TransactionSignature × Bytes) :=
  (readBytes HashSize s).bind fun p1 =>
  (decU64 p1.2).bind fun p2 =>
  (decU64 p2.2).bind fun p3 =>
  (CoveredFields.UnmarshalPis p3.2).bind fun p4 =>
  (decPrefixedBytes p4.2).map fun p5 =>
  (⟨p1.1, p2.1, p3.1, p4.1, p5.1⟩, p5.2)

/-- `Transaction.UnmarshalPis`: the nine element sequences, then the
signature sequence. -/
def Transaction.UnmarshalPis (s : Bytes) : Option (Transaction × Bytes) :=
  (decPrefixedSeq PiscoinInput.UnmarshalPis s).bind fun p1 =>
  (decPrefixedSeq PiscoinOutput.UnmarshalPis p1.2).bind fun p2 =>
  (decPrefixedSeq FileContract.UnmarshalPis p2.2).bind fun p3 =>
  (decPrefixedSeq FileContractRevision.UnmarshalPis p3.2).bind fun p4 =>
  (decPrefixedSeq StorageProof.UnmarshalPis p4.2).bind fun p5 =>
  (decPrefixedSeq PisfundInput.UnmarshalPis p5.2).bind fun p6 =>
  (decPrefixedSeq PisfundOutput.UnmarshalPis p6.2).bind fun p7 =>
  (decPrefixedSeq Currency.UnmarshalPis p7.2).bind fun p8 =>
  (decPrefixedSeq decPrefixedBytes p8.2).bind fun p9 =>
  (decPrefixedSeq TransactionSignature.UnmarshalPis p9.2).map fun p10 =>
  (⟨p1.1, p2.1, p3.1, p4.1, p5.1, p6.1, p7.1, p8.1, p9.1, p10.1⟩, p10.2)

/-- `Block.UnmarshalPis`: parent id, nonce, timestamp, count-prefixed miner
payouts, count-prefixed transactions.  The nonce is a fixed 8-byte array
(`b.Nonce[:]`). -/
def Block.UnmarshalPis (s : Bytes) : Option (Block × Bytes) :=
  (readBytes HashSize s).bind fun p1 =>
  (readBytes 8 p1.2).bind fun p2 =>
  (decU64 p2.2).bind fun p3 =>
  (decPrefixedSeq PiscoinOutput.UnmarshalPis p3.2).bind fun p4 =>
  (decPrefixedSeq Transaction.UnmarshalPis p4.2).map fun p5 =>
  (⟨p1.1, p2.1, p3.1, p4.1, p5.1⟩, p5.2)

/-! ### Well-formedness

These predicates record exactly the shape invariants every Go value of the
corresponding type satisfies by construction: fixed-size byte arrays have
their declared length, `uint64` fields are below `2^64`, and slice lengths
fit the 64-bit count prefix. -/

def PisPublicKey.WF (spk : PisPublicKey) : Prop :=
  spk.Algorithm.length = SpecifierLen ∧ spk.Key.length < 2 ^ 64

instance : DecidablePred PisPublicKey.WF := fun spk => by
  unfold PisPublicKey.WF; infer_instance

def UnlockConditions.WF (uc : UnlockConditions) : Prop :=
  uc.Timelock < 2 ^ 64 ∧ uc.PublicKeys.length < 2 ^ 64 ∧
    (∀ pk ∈ uc.PublicKeys, pk.WF) ∧ uc.SignaturesRequired < 2 ^ 64

instance : DecidablePred UnlockConditions.WF := fun uc => by
  unfold UnlockConditions.WF; infer_instance

def CoveredFields.WF (cf : CoveredFields) : Prop :=
  (cf.PiscoinInputs.length < 2 ^ 64 ∧ ∀ u ∈ cf.PiscoinInputs, u < 2 ^ 64) ∧
  (cf.PiscoinOutputs.length < 2 ^ 64 ∧ ∀ u ∈ cf.PiscoinOutputs, u < 2 ^ 64) ∧
  (cf.FileContracts.length < 2 ^ 64 ∧ ∀ u ∈ cf.FileContracts, u < 2 ^ 64) ∧
  (cf.FileContractRevisions.length < 2 ^ 64 ∧ ∀ u ∈ cf.FileContractRevisions, u < 2 ^ 64) ∧
  (cf.StorageProofs.length < 2 ^ 64 ∧ ∀ u ∈ cf.StorageProofs, u < 2 ^ 64) ∧
  (cf.PisfundInputs.length < 2 ^ 64 ∧ ∀ u ∈ cf.PisfundInputs, u < 2 ^ 64) ∧
  (cf.PisfundOutputs.length < 2 ^ 64 ∧ ∀ u ∈ cf.PisfundOutputs, u < 2 ^ 64) ∧
  (cf.MinerFees.length < 2 ^ 64 ∧ ∀ u ∈ cf.MinerFees, u < 2 ^ 64) ∧
  (cf.ArbitraryData.length < 2 ^ 64 ∧ ∀ u ∈ cf.ArbitraryData, u < 2 ^ 64) ∧
  (cf.TransactionSignatures.length < 2 ^ 64 ∧ ∀ u ∈ cf.TransactionSignatures, u < 2 ^ 64)

instance : DecidablePred CoveredFields.WF := fun cf => by
  unfold CoveredFields.WF; infer_instance

def PiscoinInput.WF (sci : PiscoinInput) : Prop :=
  sci.ParentID.length = HashSize ∧ sci.UnlockConditions.WF

instance : DecidablePred PiscoinInput.WF := fun sci => by
  unfold PiscoinInput.WF; infer_instance

def PiscoinOutput.WF (sco : PiscoinOutput) : Prop :=
  sco.Value.WF ∧ sco.UnlockHash.length = HashSize

instance : DecidablePred PiscoinOutput.WF := fun sco => by
  unfold PiscoinOutput.WF; infer_instance

def PisfundInput.WF (sfi : PisfundInput) : Prop :=
  sfi.ParentID.length = HashSize ∧ sfi.UnlockConditions.WF ∧
    sfi.ClaimUnlockHash.length = HashSize

instance : DecidablePred PisfundInput.WF := fun sfi => by
  unfold PisfundInput.WF; infer_instance

def PisfundOutput.WF (sfo : PisfundOutput) : Prop :=
  sfo.Value.WF ∧ sfo.UnlockHash.length = HashSize ∧ sfo.ClaimStart.WF

instance : DecidablePred PisfundOutput.WF := fun sfo => by
  unfold PisfundOutput.WF; infer_instance

def FileContract.WF (fc : FileContract) : Prop :=
  fc.FileSize < 2 ^ 64 ∧ fc.FileMerkleRoot.length = HashSize ∧
    fc.WindowStart < 2 ^ 64 ∧ fc.WindowEnd < 2 ^ 64 ∧ fc.Payout.WF ∧
    fc.ValidProofOutputs.length < 2 ^ 64 ∧ (∀ o ∈ fc.ValidProofOutputs, o.WF) ∧
    fc.MissedProofOutputs.length < 2 ^ 64 ∧ (∀ o ∈ fc.MissedProofOutputs, o.WF) ∧
    fc.UnlockHash.length = HashSize ∧ fc.RevisionNumber < 2 ^ 64

instance : DecidablePred FileContract.WF := fun fc => by
  unfold FileContract.WF; infer_instance

def FileContractRevision.WF (fcr : FileContractRevision) : Prop :=
  fcr.ParentID.length = HashSize ∧ fcr.UnlockConditions.WF ∧
    fcr.NewRevisionNumber < 2 ^ 64 ∧ fcr.NewFileSize < 2 ^ 64 ∧
    fcr.NewFileMerkleRoot.length = HashSize ∧
    fcr.NewWindowStart < 2 ^ 64 ∧ fcr.NewWindowEnd < 2 ^ 64 ∧
    fcr.NewValidProofOutputs.length < 2 ^ 64 ∧ (∀ o ∈ fcr.NewValidProofOutputs, o.WF) ∧
    fcr.NewMissedProofOutputs.length < 2 ^ 64 ∧ (∀ o ∈ fcr.NewMissedProofOutputs, o.WF) ∧
    fcr.NewUnlockHash.length = HashSize

instance : DecidablePred FileContractRevision.WF := fun fcr => by
  unfold FileContractRevision.WF; infer_instance

def StorageProof.WF (sp : StorageProof) : Prop :=
  sp.ParentID.length = HashSize ∧ sp.Segment.length = SegmentSize ∧
    sp.HashSet.length < 2 ^ 64 ∧ ∀ h ∈ sp.HashSet, h.length = HashSize

instance : DecidablePred StorageProof.WF := fun sp => by
  unfold StorageProof.WF; infer_instance

def TransactionSignature.WF (ts : TransactionSignature) : Prop :=
  ts.ParentID.length = HashSize ∧ ts.PublicKeyIndex < 2 ^ 64 ∧
    ts.Timelock < 2 ^ 64 ∧ ts.CoveredFields.WF ∧ ts.Signature.length < 2 ^ 64

instance : DecidablePred TransactionSignature.WF := fun ts => by
  unfold TransactionSignature.WF; infer_instance

def Transaction.WF (t : Transaction) : Prop :=
  (t.PiscoinInputs.length < 2 ^ 64 ∧ ∀ x ∈ t.PiscoinInputs, x.WF) ∧
  (t.PiscoinOutputs.length < 2 ^ 64 ∧ ∀ x ∈ t.PiscoinOutputs, x.WF) ∧
  (t.FileContracts.length < 2 ^ 64 ∧ ∀ x ∈ t.FileContracts, x.WF) ∧
  (t.FileContractRevisions.length < 2 ^ 64 ∧ ∀ x ∈ t.FileContractRevisions, x.WF) ∧
  (t.StorageProofs.length < 2 ^ 64 ∧ ∀ x ∈ t.StorageProofs, x.WF) ∧
  (t.PisfundInputs.length < 2 ^ 64 ∧ ∀ x ∈ t.PisfundInputs, x.WF) ∧
  (t.PisfundOutputs.length < 2 ^ 64 ∧ ∀ x ∈ t.PisfundOutputs, x.WF) ∧
  (t.MinerFees.length < 2 ^ 64 ∧ ∀ x ∈ t.MinerFees, x.WF) ∧
  (t.ArbitraryData.length < 2 ^ 64 ∧ ∀ x ∈ t.ArbitraryData, x.length < 2 ^ 64) ∧
  (t.TransactionSignatures.length < 2 ^ 64 ∧ ∀ x ∈ t.TransactionSignatures, x.WF)

instance : DecidablePred Transaction.WF := fun t => by
  unfold Transaction.WF; infer_instance

def Block.WF (b : Block) : Prop :=
  b.ParentID.length = HashSize ∧ b.Nonce.length = 8 ∧ b.Timestamp < 2 ^ 64 ∧
    (b.MinerPayouts.length < 2 ^ 64 ∧ ∀ x ∈ b.MinerPayouts, x.WF) ∧
    (b.Transactions.length < 2 ^ 64 ∧ ∀ x ∈ b.Transactions, x.WF)

instance : DecidablePred Block.WF := fun b => by
  unfold Block.WF; infer_instance

/-! ### Round-trip lemmas -/

theorem pisPublicKey_rt {spk : PisPublicKey} (h : spk.WF) (r : Bytes) :
    PisPublicKey.UnmarshalPis (PisPublicKey.MarshalPis spk ++ r) = some (spk, r) := by
  obtain ⟨h1, h2⟩ := h
  rw [PisPublicKey.MarshalPis, PisPublicKey.UnmarshalPis, List.append_assoc,
    readBytes_append h1]
  simp only [Option.some_bind]
  rw [decPrefixedBytes_append h2]
  rfl

theorem unlockConditions_rt {uc : UnlockConditions} (h : uc.WF) (r : Bytes) :
    UnlockConditions.UnmarshalPis (UnlockConditions.MarshalPis uc ++ r) = some (uc, r) := by
  obtain ⟨h1, h2, h3, h4⟩ := h
  rw [UnlockConditions.MarshalPis, UnlockConditions.UnmarshalPis]
  simp only [List.append_assoc]
  rw [decU64_append_of_lt h1]
  simp only [Option.some_bind]
  rw [decPrefixedSeq_append h2 (fun pk hpk r2 => pisPublicKey_rt (h3 pk hpk) r2)]
  simp only [Option.some_bind]
  rw [decU64_append_of_lt h4]
  rfl

theorem coveredFields_rt {cf : CoveredFields} (h : cf.WF) (r : Bytes) :
    CoveredFields.UnmarshalPis (CoveredFields.MarshalPis cf ++ r) = some (cf, r) := by
  obtain ⟨h1, h2, h3, h4, h5, h6, h7, h8, h9, h10⟩ := h
  rw [CoveredFields.MarshalPis, CoveredFields.UnmarshalPis]
  simp only [List.append_assoc]
  rw [decBool_append]
  simp only [Option.some_bind]
  rw [decPrefixedSeq_append h1.1 (fun u hu r2 => decU64_append_of_lt (h1.2 u hu) r2)]
  simp only [Option.some_bind]
  rw [decPrefixedSeq_append h2.1 (fun u hu r2 => decU64_append_of_lt (h2.2 u hu) r2)]
  simp only [Option.some_bind]
  rw [decPrefixedSeq_append h3.1 (fun u hu r2 => decU64_append_of_lt (h3.2 u hu) r2)]
  simp only [Option.some_bind]
  rw [decPrefixedSeq_append h4.1 (fun u hu r2 => decU64_append_of_lt (h4.2 u hu) r2)]
  simp only [Option.some_bind]
  rw [decPrefixedSeq_append h5.1 (fun u hu r2 => decU64_append_of_lt (h5.2 u hu) r2)]
  simp only [Option.some_bind]
  rw [decPrefixedSeq_append h6.1 (fun u hu r2 => decU64_append_of_lt (h6.2 u hu) r2)]
  simp only [Option.some_bind]
  rw [decPrefixedSeq_append h7.1 (fun u hu r2 => decU64_append_of_lt (h7.2 u hu) r2)]
  simp only [Option.some_bind]
  rw [decPrefixedSeq_append h8.1 (fun u hu r2 => decU64_append_of_lt (h8.2 u hu) r2)]
  simp only [Option.some_bind]
  rw [decPrefixedSeq_append h9.1 (fun u hu r2 => decU64_append_of_lt (h9.2 u hu) r2)]
  simp only [Option.some_bind]
  rw [decPrefixedSeq_append h10.1 (fun u hu r2 => decU64_append_of_lt (h10.2 u hu) r2)]
  rfl

theorem piscoinInput_rt {sci : PiscoinInput} (h : sci.WF) (r : Bytes) :
    PiscoinInput.UnmarshalPis (PiscoinInput.MarshalPis sci ++ r) = some (sci, r) := by
  obtain ⟨h1, h2⟩ := h
  rw [PiscoinInput.MarshalPis, PiscoinInput.UnmarshalPis, List.append_assoc,
    readBytes_append h1]
  simp only [Option.some_bind]
  rw [unlockConditions_rt h2]
  rfl

theorem piscoinOutput_rt {sco : PiscoinOutput} (h : sco.WF) (r : Bytes) :
    PiscoinOutput.UnmarshalPis (PiscoinOutput.MarshalPis sco ++ r) = some (sco, r) := by
  obtain ⟨h1, h2⟩ := h
  rw [PiscoinOutput.MarshalPis, PiscoinOutput.UnmarshalPis, List.append_assoc,
    currency_rt h1]
  simp only [Option.some_bind]
  rw [readBytes_append h2]
  rfl

theorem pisfundInput_rt {sfi : PisfundInput} (h : sfi.WF) (r : Bytes) :
    PisfundInput.UnmarshalPis (PisfundInput.MarshalPis sfi ++ r) = some (sfi, r) := by
  obtain ⟨h1, h2, h3⟩ := h
  rw [PisfundInput.MarshalPis, PisfundInput.UnmarshalPis]
  simp only [List.append_assoc]
  rw [readBytes_append h1]
  simp only [Option.some_bind]
  rw [unlockConditions_rt h2]
  simp only [Option.some_bind]
  rw [readBytes_append h3]
  rfl

theorem pisfundOutput_rt {sfo : PisfundOutput} (h : sfo.WF) (r : Bytes) :
    PisfundOutput.UnmarshalPis (PisfundOutput.MarshalPis sfo ++ r) = some (sfo, r) := by
  obtain ⟨h1, h2, h3⟩ := h
  rw [PisfundOutput.MarshalPis, PisfundOutput.UnmarshalPis]
  simp only [List.append_assoc]
  rw [currency_rt h1]
  simp only [Option.some_bind]
  rw [readBytes_append h2]
  simp only [Option.some_bind]
  rw [currency_rt h3]
  rfl

theorem fileContract_rt {fc : FileContract} (h : fc.WF) (r : Bytes) :
    FileContract.UnmarshalPis (FileContract.MarshalPis fc ++ r) = some (fc, r) := by
  obtain ⟨h1, h2, h3, h4, h5, h6, h7, h8, h9, h10, h11⟩ := h
  rw [FileContract.MarshalPis, FileContract.UnmarshalPis]
  simp only [List.append_assoc]
  rw [decU64_append_of_lt h1]
  simp only [Option.some_bind]
  rw [readBytes_append h2]
  simp only [Option.some_bind]
  rw [decU64_append_of_lt h3]
  simp only [Option.some_bind]
  rw [decU64_append_of_lt h4]
  simp only [Option.some_bind]
  rw [currency_rt h5]
  simp only [Option.some_bind]
  rw [decPrefixedSeq_append h6 (fun o ho r2 => piscoinOutput_rt (h7 o ho) r2)]
  simp only [Option.some_bind]
  rw [decPrefixedSeq_append h8 (fun o ho r2 => piscoinOutput_rt (h9 o ho) r2)]
  simp only [Option.some_bind]
  rw [readBytes_append h10]
  simp only [Option.some_bind]
  rw [decU64_append_of_lt h11]
  rfl

theorem fileContractRevision_rt {fcr : FileContractRevision} (h : fcr.WF) (r : Bytes) :
    FileContractRevision.UnmarshalPis (FileContractRevision.MarshalPis fcr ++ r) = some (fcr, r) := by
  obtain ⟨h1, h2, h3, h4, h5, h6, h7, h8, h9, h10, h11, h12⟩ := h
  rw [FileContractRevision.MarshalPis, FileContractRevision.UnmarshalPis]
  simp only [List.append_assoc]
  rw [readBytes_append h1]
  simp only [Option.some_bind]
  rw [unlockConditions_rt h2]
  simp only [Option.some_bind]
  rw [decU64_append_of_lt h3]
  simp only [Option.some_bind]
  rw [decU64_append_of_lt h4]
  simp only [Option.some_bind]
  rw [readBytes_append h5]
  simp only [Option.some_bind]
  rw [decU64_append_of_lt h6]
  simp only [Option.some_bind]
  rw [decU64_append_of_lt h7]
  simp only [Option.some_bind]
  rw [decPrefixedSeq_append h8 (fun o ho r2 => piscoinOutput_rt (h9 o ho) r2)]
  simp only [Option.some_bind]
  rw [decPrefixedSeq_append h10 (fun o ho r2 => piscoinOutput_rt (h11 o ho) r2)]
  simp only [Option.some_bind]
  rw [readBytes_append h12]
  rfl

theorem storageProof_rt {sp : StorageProof} (h : sp.WF) (r : Bytes) :
    StorageProof.UnmarshalPis (StorageProof.MarshalPis sp ++ r) = some (sp, r) := by
  obtain ⟨h1, h2, h3, h4⟩ := h
  rw [StorageProof.MarshalPis, StorageProof.UnmarshalPis]
  simp only [List.append_assoc]
  rw [readBytes_append h1]
  simp only [Option.some_bind]
  rw [readBytes_append h2]
  simp only [Option.some_bind]
  rw [decPrefixedSeq_append h3 (fun hs hhs r2 => readBytes_append (h4 hs hhs) r2)]
  rfl

theorem transactionSignature_rt {ts : TransactionSignature} (h : ts.WF) (r : Bytes) :
    TransactionSignature.UnmarshalPis (TransactionSignature.MarshalPis ts ++ r) = some (ts, r) := by
  obtain ⟨h1, h2, h3, h4, h5⟩ := h
  rw [TransactionSignature.MarshalPis, TransactionSignature.UnmarshalPis]
  simp only [List.append_assoc]
  rw [readBytes_append h1]
  simp only [Option.some_bind]
  rw [decU64_append_of_lt h2]
  simp only [Option.some_bind]
  rw [decU64_append_of_lt h3]
  simp only [Option.some_bind]
  rw [coveredFields_rt h4]
  simp only [Option.some_bind]
  rw [decPrefixedBytes_append h5]
  rfl

theorem transaction_rt {t : Transaction} (h : t.WF) (r : Bytes) :
    Transaction.UnmarshalPis (Transaction.MarshalPis t ++ r) = some (t, r) := by
  obtain ⟨h1, h2, h3, h4, h5, h6, h7, h8, h9, h10⟩ := h
  rw [Transaction.MarshalPis, Transaction.marshalPisNoSignatures, Transaction.UnmarshalPis]
  simp only [List.append_assoc]
  rw [decPrefixedSeq_append h1.1 (fun x hx r2 => piscoinInput_rt (h1.2 x hx) r2)]
  simp only [Option.some_bind]
  rw [decPrefixedSeq_append h2.1 (fun x hx r2 => piscoinOutput_rt (h2.2 x hx) r2)]
  simp only [Option.some_bind]
  rw [decPrefixedSeq_append h3.1 (fun x hx r2 => fileContract_rt (h3.2 x hx) r2)]
  simp only [Option.some_bind]
  rw [decPrefixedSeq_append h4.1 (fun x hx r2 => fileContractRevision_rt (h4.2 x hx) r2)]
  simp only [Option.some_bind]
  rw [decPrefixedSeq_append h5.1 (fun x hx r2 => storageProof_rt (h5.2 x hx) r2)]
  simp only [Option.some_bind]
  rw [decPrefixedSeq_append h6.1 (fun x hx r2 => pisfundInput_rt (h6.2 x hx) r2)]
  simp only [Option.some_bind]
  rw [decPrefixedSeq_append h7.1 (fun x hx r2 => pisfundOutput_rt (h7.2 x hx) r2)]
  simp only [Option.some_bind]
  rw [decPrefixedSeq_append h8.1 (fun x hx r2 => currency_rt (h8.2 x hx) r2)]
  simp only [Option.some_bind]
  rw [decPrefixedSeq_append h9.1 (fun x hx r2 => decPrefixedBytes_append (h9.2 x hx) r2)]
  simp only [Option.some_bind]
  rw [decPrefixedSeq_append h10.1 (fun x hx r2 => transactionSignature_rt (h10.2 x hx) r2)]
  rfl

theorem block_rt {b : Block} (h : b.WF) (r : Bytes) :
    Block.UnmarshalPis (Block.MarshalPis b ++ r) = some (b, r) := by
  obtain ⟨h1, h2, h3, h4, h5⟩ := h
  rw [Block.MarshalPis, Block.UnmarshalPis]
  simp only [List.append_assoc]
  rw [readBytes_append h1]
  simp only [Option.some_bind]
  rw [readBytes_append h2]
  simp only [Option.some_bind]
  rw [decU64_append_of_lt h3]
  simp only [Option.some_bind]
  rw [decPrefixedSeq_append h4.1 (fun x hx r2 => piscoinOutput_rt (h4.2 x hx) r2)]
  simp only [Option.some_bind]
  rw [decPrefixedSeq_append h5.1 (fun x hx r2 => transaction_rt (h5.2 x hx) r2)]
  rfl

/-! ### Size functions (`MarshalPisSize`), translated from `types/encoding.go` -/

/-- `CoveredFields.MarshalPisSize`: one flag byte, then per category an
8-byte count plus 8 bytes per index. -/
def CoveredFields.MarshalPisSize (cf : CoveredFields) : Nat :=
  1 + (8 + cf.PiscoinInputs.length * 8)
    + (8 + cf.PiscoinOutputs.length * 8)
    + (8 + cf.FileContracts.length * 8)
    + (8 + cf.FileContractRevisions.length * 8)
    + (8 + cf.StorageProofs.length * 8)
    + (8 + cf.PisfundInputs.length * 8)
    + (8 + cf.PisfundOutputs.length * 8)
    + (8 + cf.MinerFees.length * 8)
    + (8 + cf.ArbitraryData.length * 8)
    + (8 + cf.TransactionSignatures.length * 8)

/-- `UnlockConditions.MarshalPisSize`: timelock, key-count prefix, each
key's 16-byte tag plus length-prefixed key bytes, threshold. -/
def UnlockConditions.MarshalPisSize (uc : UnlockConditions) : Nat :=
  8 + 8 + (uc.PublicKeys.map (fun spk => spk.Algorithm.length + (8 + spk.Key.length))).sum + 8

/-- `FileContract.MarshalPisSize`. -/
def FileContract.MarshalPisSize (fc : FileContract) : Nat :=
  8 + fc.FileMerkleRoot.length + (8 + 8) + fc.Payout.MarshalPisSize
    + (8 + (fc.ValidProofOutputs.map
        (fun sco => sco.Value.MarshalPisSize + sco.UnlockHash.length)).sum)
    + (8 + (fc.MissedProofOutputs.map
        (fun sco => sco.Value.MarshalPisSize + sco.UnlockHash.length)).sum)
    + fc.UnlockHash.length + 8

/-- `FileContractRevision.MarshalPisSize`. -/
def FileContractRevision.MarshalPisSize (fcr : FileContractRevision) : Nat :=
  fcr.ParentID.length + fcr.UnlockConditions.MarshalPisSize + 8 + 8
    + fcr.NewFileMerkleRoot.length + (8 + 8)
    + (8 + (fcr.NewValidProofOutputs.map
        (fun sco => sco.Value.MarshalPisSize + sco.UnlockHash.length)).sum)
    + (8 + (fcr.NewMissedProofOutputs.map
        (fun sco => sco.Value.MarshalPisSize + sco.UnlockHash.length)).sum)
    + fcr.NewUnlockHash.length

/-- `Transaction.MarshalPisSize`: the per-category sums of the source, in
order; storage-proof hash sets are counted as `count * HashSize`. -/
def Transaction.MarshalPisSize (t : Transaction) : Nat :=
  (8 + (t.PiscoinInputs.map
      (fun sci => sci.ParentID.length + sci.UnlockConditions.MarshalPisSize)).sum)
    + (8 + (t.PiscoinOutputs.map
        (fun sco => sco.Value.MarshalPisSize + sco.UnlockHash.length)).sum)
    + (8 + (t.FileContracts.map (fun fc => fc.MarshalPisSize)).sum)
    + (8 + (t.FileContractRevisions.map (fun fcr => fcr.MarshalPisSize)).sum)
    + (8 + (t.StorageProofs.map
        (fun sp => sp.ParentID.length + sp.Segment.length
          + (8 + sp.HashSet.length * HashSize))).sum)
    + (8 + (t.PisfundInputs.map
        (fun sfi => sfi.ParentID.length + sfi.ClaimUnlockHash.length
          + sfi.UnlockConditions.MarshalPisSize)).sum)
    + (8 + (t.PisfundOutputs.map
        (fun sfo => sfo.Value.MarshalPisSize + sfo.UnlockHash.length
          + sfo.ClaimStart.MarshalPisSize)).sum)
    + (8 + (t.MinerFees.map (fun fee => fee.MarshalPisSize)).sum)
    + (8 + (t.ArbitraryData.map (fun ad => 8 + ad.length)).sum)
    + (8 + (t.TransactionSignatures.map
        (fun ts => ts.ParentID.length + 8 + 8 + ts.CoveredFields.MarshalPisSize
          + (8 + ts.Signature.length))).sum)

/-! ### Size-exactness lemmas -/

theorem sum_map_const {l : List α} {f : α → Nat} {c : Nat} (h : ∀ x ∈ l, f x = c) :
    (l.map f).sum = l.length * c := by
  induction l with
  | nil => simp
  | cons x xs ih =>
    simp only [List.map_cons, List.sum_cons, List.length_cons]
    rw [h x (by simp), ih (fun y hy => h y (by simp [hy]))]
    ring

theorem pisPublicKey_length_marshal (spk : PisPublicKey) :
    (PisPublicKey.MarshalPis spk).length = spk.Algorithm.length + (8 + spk.Key.length) := by
  simp [PisPublicKey.MarshalPis, encPrefixedBytes_length]

theorem unlockConditions_size_eq (uc : UnlockConditions) :
    UnlockConditions.MarshalPisSize uc = (UnlockConditions.MarshalPis uc).length := by
  simp [UnlockConditions.MarshalPisSize, UnlockConditions.MarshalPis,
    encPrefixedSeq_length, encU64_length, pisPublicKey_length_marshal]
  omega

theorem currency_length_marshal (c : Currency) :
    (Currency.MarshalPis c).length = Currency.MarshalPisSize c :=
  (currency_size_eq c).symm

theorem coveredFields_size_eq (cf : CoveredFields) :
    CoveredFields.MarshalPisSize cf = (CoveredFields.MarshalPis cf).length := by
  have h8 : ∀ l : List Nat, (l.map (fun u => (encU64 u).length)).sum = l.length * 8 :=
    fun l => sum_map_const (fun u _ => encU64_length u)
  simp [CoveredFields.MarshalPisSize, CoveredFields.MarshalPis, encPrefixedSeq_length,
    encBool, h8]
  omega

theorem piscoinOutput_length_marshal (sco : PiscoinOutput) :
    (PiscoinOutput.MarshalPis sco).length = sco.Value.MarshalPisSize + sco.UnlockHash.length := by
  simp [PiscoinOutput.MarshalPis, currency_length_marshal]

theorem fileContract_size_eq (fc : FileContract) :
    FileContract.MarshalPisSize fc = (FileContract.MarshalPis fc).length := by
  simp [FileContract.MarshalPisSize, FileContract.MarshalPis, encPrefixedSeq_length,
    encU64_length, currency_length_marshal, piscoinOutput_length_marshal]
  omega

theorem fileContractRevision_size_eq (fcr : FileContractRevision) :
    FileContractRevision.MarshalPisSize fcr = (FileContractRevision.MarshalPis fcr).length := by
  simp [FileContractRevision.MarshalPisSize, FileContractRevision.MarshalPis,
    encPrefixedSeq_length, encU64_length, currency_length_marshal,
    piscoinOutput_length_marshal, unlockConditions_size_eq]
  omega

theorem transaction_size_eq {t : Transaction}
    (h : ∀ sp ∈ t.StorageProofs, ∀ hs ∈ sp.HashSet, hs.length = HashSize) :
    Transaction.MarshalPisSize t = (Transaction.MarshalPis t).length := by
  have hsp : ∀ sp ∈ t.StorageProofs,
      (StorageProof.MarshalPis sp).length
        = sp.ParentID.length + sp.Segment.length + (8 + sp.HashSet.length * HashSize) := by
    intro sp hsp
    have hs : (sp.HashSet.map (fun hs => hs.length)).sum = sp.HashSet.length * HashSize :=
      sum_map_const (fun hs hhs => h sp hsp hs hhs)
    simp [StorageProof.MarshalPis, encPrefixedSeq_length, hs]
    omega
  rw [Transaction.MarshalPisSize, Transaction.MarshalPis, Transaction.marshalPisNoSignatures]
  simp only [List.length_append, encPrefixedSeq_length]
  rw [List.map_congr_left hsp]
  simp [encPrefixedSeq_length, encU64_length, currency_length_marshal,
    piscoinOutput_length_marshal, unlockConditions_size_eq, fileContract_size_eq,
    fileContractRevision_size_eq, pisPublicKey_length_marshal,
    PiscoinInput.MarshalPis, PisfundInput.MarshalPis, PisfundOutput.MarshalPis,
    TransactionSignature.MarshalPis, coveredFields_size_eq, encPrefixedBytes_length]
  omega

/-! ### Text machinery

Strings are modelled as byte lists (Go strings are byte sequences); hex
digits, quotes, colons and digits appear via their ASCII codes. -/

/-- Error values surfaced by the text/JSON paths (`ErrNegativeCurrency`,
`ErrUnlockHashWrongLen`, `ErrInvalidUnlockHashChecksum`, and a generic
scan/parse failure standing for `fmt`/`hex`/`big.Int` errors). -/
inductive Err where
  | negativeCurrency
  | unlockHashWrongLen
  | invalidUnlockHashChecksum
  | scanFailure
deriving DecidableEq, Repr

/-- Go's `copy(dst, src)`: overwrites the first `min(len(dst), len(src))`
bytes of `dst` with those of `src`, leaving the rest of `dst` unchanged. -/
def copyBytes (dst src : Bytes) : Bytes :=
  src.take dst.length ++ dst.drop src.length

theorem copyBytes_of_length_le {dst src : Bytes} (h : dst.length ≤ src.length) :
    copyBytes dst src = src.take dst.length := by
  simp [copyBytes, List.drop_eq_nil_of_le h]

/-- Lowercase hex digit (ASCII code) of a value below 16, as produced by
the `%x` format verb. -/
def hexChar (n : Nat) : Nat :=
  if n < 10 then 48 + n else 87 + n

/-- Value of a hex digit character, accepting lowercase and uppercase (the
behavior of `fmt`'s `%x` scanning and `hex.DecodeString`). -/
def hexCharVal (c : Nat) : Option Nat :=
  if 48 ≤ c ∧ c ≤ 57 then some (c - 48)
  else if 97 ≤ c ∧ c ≤ 102 then some (c - 87)
  else if 65 ≤ c ∧ c ≤ 70 then some (c - 55)
  else none

/-- Lowercase hex rendering of a byte list (`fmt.Sprintf("%x", b)`). -/
def hexOfBytes : Bytes → Bytes
  | [] => []
  | b :: bs => hexChar (b / 16) :: hexChar (b % 16) :: hexOfBytes bs

/-- Hex parsing of a full string into bytes: fails unless the length is
even and every character is a hex digit (the success cases of
`fmt.Sscanf("%x")` and `hex.DecodeString` on such inputs). -/
def hexToBytes : Bytes → Option Bytes
  | [] => some []
  | [_] => none
  | c1 :: c2 :: rest =>
      (hexCharVal c1).bind fun v1 =>
      (hexCharVal c2).bind fun v2 =>
      (hexToBytes rest).map fun bs => (16 * v1 + v2) :: bs

theorem hexOfBytes_length (bs : Bytes) : (hexOfBytes bs).length = 2 * bs.length := by
  induction bs with
  | nil => rfl
  | cons b bs ih => simp [hexOfBytes, ih]; ring

theorem hexCharVal_hexChar : ∀ n, n < 16 → hexCharVal (hexChar n) = some n := by
  decide

theorem hexToBytes_hexOfBytes {bs : Bytes} (h : ∀ b ∈ bs, b < 256) :
    hexToBytes (hexOfBytes bs) = some bs := by
  induction bs with
  | nil => rfl
  | cons b bs ih =>
    have hb : b < 256 := h b (by simp)
    have hd : b / 16 < 16 := by omega
    have hm : b % 16 < 16 := Nat.mod_lt _ (by decide)
    match hbs : hexOfBytes bs with
    | [] =>
      simp only [hexOfBytes, hbs, hexToBytes,
        hexCharVal_hexChar _ hd, hexCharVal_hexChar _ hm, Option.some_bind]
      have ih2 := ih (fun x hx => h x (by simp [hx]))
      rw [hbs] at ih2
      simp only [hexToBytes] at ih2
      simp [ih2, Option.map_some]
      omega
    | c :: cs =>
      simp only [hexOfBytes, hbs, hexToBytes,
        hexCharVal_hexChar _ hd, hexCharVal_hexChar _ hm, Option.some_bind]
      have ih2 := ih (fun x hx => h x (by simp [hx]))
      rw [hbs] at ih2
      rw [ih2]
      have hbv : 16 * (b / 16) + b % 16 = b := by omega
      simp [hbv]

/-! ### UnlockHash text form

Modelled from the spec: the checksum is a hash of the 32 address bytes
(`crypto.HashObject(uh)` when rendering, `crypto.HashBytes(byteUnlockHash)`
when verifying — the same hash of the same bytes, since hashing an object
hashes its canonical encoding, which for a 32-byte array is its raw bytes).
The `crypto` package is not among the given sources, so the hash is a
parameter `H` here; the theorems hold for every hash function. -/

/-- `UnlockHash.String`: lowercase hex of the 32 address bytes followed by
lowercase hex of the first 6 bytes of the checksum hash. -/
def UnlockHash.String (H : Bytes → Bytes) (uh : UnlockHash) : Bytes :=
  hexOfBytes uh ++ hexOfBytes ((H uh).take UnlockHashChecksumSize)

/-- `UnlockHash.LoadString`: rejects any input whose length is not
`2*32 + 2*6` with `ErrUnlockHashWrongLen`; hex-decodes the address and
checksum portions; rejects a checksum mismatch with
`ErrInvalidUnlockHashChecksum`; only on success copies the decoded bytes
into the receiver.  Returns the receiver state after the call together
with the reported error. -/
def UnlockHash.LoadString (H : Bytes → Bytes) (uh : UnlockHash) (strUH : Bytes) :
    UnlockHash × Option Err :=
  if strUH.length ≠ HashSize * 2 + UnlockHashChecksumSize * 2 then
    (uh, some .unlockHashWrongLen)
  else
    match hexToBytes (strUH.take (HashSize * 2)) with
    | none => (uh, some .scanFailure)
    | some byteUnlockHash =>
      match hexToBytes (strUH.drop (HashSize * 2)) with
      | none => (uh, some .scanFailure)
      | some checksum =>
        if (H byteUnlockHash).take UnlockHashChecksumSize ≠ checksum then
          (uh, some .invalidUnlockHashChecksum)
        else
          (copyBytes uh byteUnlockHash, none)

/-! ### Specifier text form -/

/-- The index at which `Specifier.String` truncates: the `for i = range s`
loop leaves `i` at the first zero byte's index when one exists, and at the
LAST index (`len(s)-1`) when the loop completes without a break. -/
def specIdx : Bytes → Nat
  | [] => 0
  | b :: t =>
      if b = 0 then 0
      else match t with
        | [] => 0
        | _ :: _ => specIdx t + 1

/-- `Specifier.String`: `string(s[:i])` for the loop index `i` above. -/
def Specifier.String (s : Specifier) : Bytes :=
  s.take (specIdx s)

/-- `Specifier.UnmarshalJSON`, after the stdlib JSON string unwrap:
`copy(s[:], str)` copies the decoded string's bytes over the receiver's
fixed 16-byte buffer, leaving bytes past the string's length unchanged. -/
def Specifier.UnmarshalJSON (s : Specifier) (str : Bytes) : Specifier :=
  copyBytes s str

/-- The all-zero specifier (a fresh `Specifier` value in Go). -/
def zeroSpecifier : Specifier := List.replicate SpecifierLen 0

theorem specIdx_singleton (b : Nat) : specIdx [b] = 0 := by
  simp [specIdx]

theorem specIdx_cons₂ (b c : Nat) (cs : List Nat) :
    specIdx (b :: c :: cs) = if b = 0 then 0 else specIdx (c :: cs) + 1 := rfl

theorem specIdx_zero_head (t : Bytes) : specIdx (0 :: t) = 0 := by
  cases t <;> simp [specIdx_singleton, specIdx_cons₂]

theorem specIdx_append_zero {pre suf : Bytes} (h : (0 : Nat) ∉ pre) :
    specIdx (pre ++ 0 :: suf) = pre.length := by
  induction pre with
  | nil => simp [specIdx_zero_head]
  | cons b t ih =>
    have hb : b ≠ 0 := fun hb0 => h (by simp [hb0])
    have ht : (0 : Nat) ∉ t := fun hm => h (by simp [hm])
    cases t with
    | nil => simp [specIdx_cons₂, hb, specIdx_zero_head]
    | cons c cs =>
      have ihx := ih ht
      simp only [List.cons_append] at ihx ⊢
      rw [specIdx_cons₂, if_neg hb, ihx]
      simp

theorem specIdx_no_zero {s : Bytes} (h : (0 : Nat) ∉ s) :
    specIdx s = s.length - 1 := by
  induction s with
  | nil => rfl
  | cons b t ih =>
    have hb : b ≠ 0 := fun hb0 => h (by simp [hb0])
    have ht : (0 : Nat) ∉ t := fun hm => h (by simp [hm])
    cases t with
    | nil => simp [specIdx_singleton]
    | cons c cs =>
      have ihx := ih ht
      rw [specIdx_cons₂, if_neg hb, ihx]
      simp

/-! ### PisPublicKey text form -/

/-- `PisPublicKey.LoadString`: splits on `":"`; with anything other than
exactly one separator it returns without touching the receiver and without
reporting any error (the method has no error return).  Otherwise it
hex-decodes the key portion (clearing the key on a hex failure) and copies
the algorithm portion over the 16-byte tag. -/
def PisPublicKey.LoadString (spk : PisPublicKey) (s : Bytes) : PisPublicKey :=
  if s.count 58 ≠ 1 then spk
  else
    match hexToBytes ((s.dropWhile (fun c => c != 58)).tail) with
    | none => { spk with Key := [] }
    | some k =>
        { Algorithm := copyBytes spk.Algorithm (s.takeWhile (fun c => c != 58)), Key := k }

/-! ### Currency JSON form -/

/-- Strip every leading quote byte. -/
def trimLeadingQuotes : Bytes → Bytes
  | [] => []
  | c :: t => if c = 34 then trimLeadingQuotes t else c :: t

/-- `bytes.Trim(b, quote)`: strip every leading and trailing quote byte. -/
def trimQuotes (b : Bytes) : Bytes :=
  trimLeadingQuotes ((trimLeadingQuotes b.reverse).reverse)

/-- Parse an all-digit run, accumulating left-to-right; fails at the first
non-digit. -/
def parseDigitsAux : Bytes → Nat → Option Nat
  | [], acc => some acc
  | c :: t, acc =>
      if 48 ≤ c ∧ c ≤ 57 then parseDigitsAux t (acc * 10 + (c - 48)) else none

/-- Parse a non-empty all-digit run. -/
def parseDigits (l : Bytes) : Option Nat :=
  if l.isEmpty then none else parseDigitsAux l 0

/-- `big.Int.SetString(s, 10)` on a full string: an optional sign followed
by a non-empty digit run. -/
def parseDec (l : Bytes) : Option Int :=
  match l with
  | [] => none
  | c :: t =>
      if c = 43 then (parseDigits t).map (fun n => (n : Int))
      else if c = 45 then (parseDigits t).map (fun n => -(n : Int))
      else (parseDigits (c :: t)).map (fun n => (n : Int))

/-- `Currency.UnmarshalJSON`: trims every surrounding quote byte, then
delegates to `big.Int.UnmarshalJSON` (the `"null"` no-op, then base-10
`SetString`); a parsed negative value is reset to zero and reported as
`ErrNegativeCurrency`.  Returns the receiver state after the call together
with the reported error (on a `SetString` failure Go leaves the receiver in
an unspecified state; the pre-call value stands in for it here, and no
claim depends on that case). -/
def Currency.UnmarshalJSON (c : Currency) (b : Bytes) : Currency × Option Err :=
  let b2 := trimQuotes b
  if b2 = [110, 117, 108, 108] then (c, none)
  else
    match parseDec b2 with
    | none => (c, some .scanFailure)
    | some n => if n < 0 then (⟨0⟩, some .negativeCurrency) else (⟨n.toNat⟩, none)

/-! ### Lemmas about quote trimming and decimal parsing -/

theorem trimLeadingQuotes_replicate_append (k : Nat) (l : Bytes) :
    trimLeadingQuotes (List.replicate k 34 ++ l) = trimLeadingQuotes l := by
  induction k with
  | zero => simp
  | succ k ih => simp [List.replicate_succ, trimLeadingQuotes, ih]

theorem trimLeadingQuotes_no_quote {c : Nat} (t : Bytes) (h : c ≠ 34) :
    trimLeadingQuotes (c :: t) = c :: t := by
  simp [trimLeadingQuotes, h]

theorem trimQuotes_sandwich {ds : Bytes} (k j : Nat) (hne : ds ≠ [])
    (h34 : ∀ c ∈ ds, c ≠ 34) :
    trimQuotes (List.replicate k 34 ++ (ds ++ List.replicate j 34)) = ds := by
  obtain ⟨l', a, rfl⟩ := (List.eq_nil_or_concat ds).resolve_left hne
  simp only [List.concat_eq_append] at h34 ⊢
  have ha : a ≠ 34 := h34 a (by simp)
  have hrev : (List.replicate k 34 ++ ((l' ++ [a]) ++ List.replicate j 34)).reverse
      = List.replicate j 34 ++ (a :: (l'.reverse ++ List.replicate k 34)) := by
    simp [List.reverse_append, List.reverse_replicate, List.append_assoc]
  rw [trimQuotes, hrev, trimLeadingQuotes_replicate_append,
    trimLeadingQuotes_no_quote _ ha]
  have hrev2 : (a :: (l'.reverse ++ List.replicate k 34)).reverse
      = List.replicate k 34 ++ (l' ++ [a]) := by
    simp [List.reverse_append, List.reverse_replicate, List.append_assoc]
  rw [hrev2, trimLeadingQuotes_replicate_append]
  cases l' with
  | nil => exact trimLeadingQuotes_no_quote _ ha
  | cons c t => exact trimLeadingQuotes_no_quote _ (h34 c (by simp))

theorem parseDigitsAux_all {ds : Bytes} (h : ∀ d ∈ ds, 48 ≤ d ∧ d ≤ 57) :
    ∀ acc : Nat, parseDigitsAux ds acc = some (ds.foldl (fun a c => a * 10 + (c - 48)) acc) := by
  induction ds with
  | nil => intro acc; rfl
  | cons c t ih =>
    intro acc
    rw [parseDigitsAux, if_pos (h c (by simp)), List.foldl_cons]
    exact ih (fun d hd => h d (by simp [hd])) _

/-- Decimal value of a digit string, as accumulated by `SetString`. -/
def digitsVal (ds : Bytes) : Nat :=
  ds.foldl (fun a c => a * 10 + (c - 48)) 0

theorem parseDec_digits {ds : Bytes} (hne : ds ≠ []) (h : ∀ d ∈ ds, 48 ≤ d ∧ d ≤ 57) :
    parseDec ds = some ((digitsVal ds : Nat) : Int) := by
  cases ds with
  | nil => exact absurd rfl hne
  | cons c t =>
    have hc := h c (by simp)
    have h43 : c ≠ 43 := by omega
    have h45 : c ≠ 45 := by omega
    rw [parseDec, if_neg h43, if_neg h45, parseDigits]
    rw [if_neg (by simp)]
    rw [parseDigitsAux_all h 0]
    rfl

/-! ### Sample values used by the witnesses -/

def sampleHash : Bytes := List.replicate 32 0

def sampleKey : PisPublicKey := ⟨List.replicate 16 0, [7]⟩

def sampleUC : UnlockConditions := ⟨1, [sampleKey], 1⟩

def sampleCF : CoveredFields := ⟨true, [0], [], [], [], [], [], [], [], [], [1]⟩

def sampleSCI : PiscoinInput := ⟨sampleHash, sampleUC⟩

def sampleSCO : PiscoinOutput := ⟨⟨5⟩, sampleHash⟩

def sampleSFI : PisfundInput := ⟨sampleHash, sampleUC, sampleHash⟩

def sampleSFO : PisfundOutput := ⟨⟨5⟩, sampleHash, ⟨0⟩⟩

def sampleFC : FileContract := ⟨10, sampleHash, 1, 2, ⟨1000⟩, [sampleSCO], [], sampleHash, 3⟩

def sampleFCR : FileContractRevision :=
  ⟨sampleHash, sampleUC, 4, 10, sampleHash, 1, 2, [sampleSCO], [], sampleHash⟩

def sampleSP : StorageProof := ⟨sampleHash, List.replicate 64 0, [sampleHash]⟩

def sampleTS : TransactionSignature := ⟨sampleHash, 0, 0, sampleCF, [1, 2]⟩

def sampleTx : Transaction :=
  ⟨[sampleSCI], [sampleSCO], [sampleFC], [sampleFCR], [sampleSP], [sampleSFI],
    [sampleSFO], [⟨7⟩], [[104, 105]], [sampleTS]⟩

def sampleBlock : Block := ⟨sampleHash, List.replicate 8 0, 99, [sampleSCO], [sampleTx]⟩

/-! ### Claims -/

/-- C1: for every well-formed value of each of the fourteen entity types
(Currency, CoveredFields, PiscoinInput, PiscoinOutput, PisfundInput,
PisfundOutput, FileContract, FileContractRevision, StorageProof,
PisPublicKey, UnlockConditions, TransactionSignature, Transaction, Block),
decoding the bytes produced by `MarshalPis` succeeds, consumes the whole
encoding, and yields a value structurally equal to the original (hence
content-equal under any hash of the canonical encoding). -/
theorem c1_decode_encode_roundtrip :
    (∀ c : Currency, c.WF →
      Currency.UnmarshalPis (Currency.MarshalPis c) = some (c, [])) ∧
    (∀ cf : CoveredFields, cf.WF →
      CoveredFields.UnmarshalPis (CoveredFields.MarshalPis cf) = some (cf, [])) ∧
    (∀ sci : PiscoinInput, sci.WF →
      PiscoinInput.UnmarshalPis (PiscoinInput.MarshalPis sci) = some (sci, [])) ∧
    (∀ sco : PiscoinOutput, sco.WF →
      PiscoinOutput.UnmarshalPis (PiscoinOutput.MarshalPis sco) = some (sco, [])) ∧
    (∀ sfi : PisfundInput, sfi.WF →
      PisfundInput.UnmarshalPis (PisfundInput.MarshalPis sfi) = some (sfi, [])) ∧
    (∀ sfo : PisfundOutput, sfo.WF →
      PisfundOutput.UnmarshalPis (PisfundOutput.MarshalPis sfo) = some (sfo, [])) ∧
    (∀ fc : FileContract, fc.WF →
      FileContract.UnmarshalPis (FileContract.MarshalPis fc) = some (fc, [])) ∧
    (∀ fcr : FileContractRevision, fcr.WF →
      FileContractRevision.UnmarshalPis (FileContractRevision.MarshalPis fcr) = some (fcr, [])) ∧
    (∀ sp : StorageProof, sp.WF →
      StorageProof.UnmarshalPis (StorageProof.MarshalPis sp) = some (sp, [])) ∧
    (∀ spk : PisPublicKey, spk.WF →
      PisPublicKey.UnmarshalPis (PisPublicKey.MarshalPis spk) = some (spk, [])) ∧
    (∀ uc : UnlockConditions, uc.WF →
      UnlockConditions.UnmarshalPis (UnlockConditions.MarshalPis uc) = some (uc, [])) ∧
    (∀ ts : TransactionSignature, ts.WF →
      TransactionSignature.UnmarshalPis (TransactionSignature.MarshalPis ts) = some (ts, [])) ∧
    (∀ t : Transaction, t.WF →
      Transaction.UnmarshalPis (Transaction.MarshalPis t) = some (t, [])) ∧
    (∀ b : Block, b.WF →
      Block.UnmarshalPis (Block.MarshalPis b) = some (b, [])) := by
  refine ⟨fun c h => ?_, fun cf h => ?_, fun sci h => ?_, fun sco h => ?_,
    fun sfi h => ?_, fun sfo h => ?_, fun fc h => ?_, fun fcr h => ?_,
    fun sp h => ?_, fun spk h => ?_, fun uc h => ?_, fun ts h => ?_,
    fun t h => ?_, fun b h => ?_⟩
  · have hx := currency_rt h []; rwa [List.append_nil] at hx
  · have hx := coveredFields_rt h []; rwa [List.append_nil] at hx
  · have hx := piscoinInput_rt h []; rwa [List.append_nil] at hx
  · have hx := piscoinOutput_rt h []; rwa [List.append_nil] at hx
  · have hx := pisfundInput_rt h []; rwa [List.append_nil] at hx
  · have hx := pisfundOutput_rt h []; rwa [List.append_nil] at hx
  · have hx := fileContract_rt h []; rwa [List.append_nil] at hx
  · have hx := fileContractRevision_rt h []; rwa [List.append_nil] at hx
  · have hx := storageProof_rt h []; rwa [List.append_nil] at hx
  · have hx := pisPublicKey_rt h []; rwa [List.append_nil] at hx
  · have hx := unlockConditions_rt h []; rwa [List.append_nil] at hx
  · have hx := transactionSignature_rt h []; rwa [List.append_nil] at hx
  · have hx := transaction_rt h []; rwa [List.append_nil] at hx
  · have hx := block_rt h []; rwa [List.append_nil] at hx

/-- Witness for C1: the round trip evaluated at concrete values of all
fourteen types, discharging each well-formedness hypothesis by `decide`. -/
theorem c1_decode_encode_roundtrip_witness :
    Currency.UnmarshalPis (Currency.MarshalPis ⟨5⟩) = some (⟨5⟩, []) ∧
    CoveredFields.UnmarshalPis (CoveredFields.MarshalPis sampleCF) = some (sampleCF, []) ∧
    PiscoinInput.UnmarshalPis (PiscoinInput.MarshalPis sampleSCI) = some (sampleSCI, []) ∧
    PiscoinOutput.UnmarshalPis (PiscoinOutput.MarshalPis sampleSCO) = some (sampleSCO, []) ∧
    PisfundInput.UnmarshalPis (PisfundInput.MarshalPis sampleSFI) = some (sampleSFI, []) ∧
    PisfundOutput.UnmarshalPis (PisfundOutput.MarshalPis sampleSFO) = some (sampleSFO, []) ∧
    FileContract.UnmarshalPis (FileContract.MarshalPis sampleFC) = some (sampleFC, []) ∧
    FileContractRevision.UnmarshalPis (FileContractRevision.MarshalPis sampleFCR)
      = some (sampleFCR, []) ∧
    StorageProof.UnmarshalPis (StorageProof.MarshalPis sampleSP) = some (sampleSP, []) ∧
    PisPublicKey.UnmarshalPis (PisPublicKey.MarshalPis sampleKey) = some (sampleKey, []) ∧
    UnlockConditions.UnmarshalPis (UnlockConditions.MarshalPis sampleUC) = some (sampleUC, []) ∧
    TransactionSignature.UnmarshalPis (TransactionSignature.MarshalPis sampleTS)
      = some (sampleTS, []) ∧
    Transaction.UnmarshalPis (Transaction.MarshalPis sampleTx) = some (sampleTx, []) ∧
    Block.UnmarshalPis (Block.MarshalPis sampleBlock) = some (sampleBlock, []) :=
  ⟨c1_decode_encode_roundtrip.1 ⟨5⟩ (by decide),
    c1_decode_encode_roundtrip.2.1 sampleCF (by decide),
    c1_decode_encode_roundtrip.2.2.1 sampleSCI (by decide),
    c1_decode_encode_roundtrip.2.2.2.1 sampleSCO (by decide),
    c1_decode_encode_roundtrip.2.2.2.2.1 sampleSFI (by decide),
    c1_decode_encode_roundtrip.2.2.2.2.2.1 sampleSFO (by decide),
    c1_decode_encode_roundtrip.2.2.2.2.2.2.1 sampleFC (by decide),
    c1_decode_encode_roundtrip.2.2.2.2.2.2.2.1 sampleFCR (by decide),
    c1_decode_encode_roundtrip.2.2.2.2.2.2.2.2.1 sampleSP (by decide),
    c1_decode_encode_roundtrip.2.2.2.2.2.2.2.2.2.1 sampleKey (by decide),
    c1_decode_encode_roundtrip.2.2.2.2.2.2.2.2.2.2.1 sampleUC (by decide),
    c1_decode_encode_roundtrip.2.2.2.2.2.2.2.2.2.2.2.1 sampleTS (by decide),
    c1_decode_encode_roundtrip.2.2.2.2.2.2.2.2.2.2.2.2.1 sampleTx (by decide),
    c1_decode_encode_roundtrip.2.2.2.2.2.2.2.2.2.2.2.2.2 sampleBlock (by decide)⟩

/-- C2: for every value of each type providing a size function (Currency,
CoveredFields, FileContract, FileContractRevision, UnlockConditions,
Transaction), `MarshalPisSize` equals the exact byte length of `MarshalPis`,
computed without encoding.  For Transaction, the hypothesis records that
storage-proof hash-set entries are 32-byte hashes (fixed-size arrays in Go),
since the size function counts them as `count * HashSize`. -/
theorem c2_size_exactness :
    (∀ c : Currency, Currency.MarshalPisSize c = (Currency.MarshalPis c).length) ∧
    (∀ cf : CoveredFields, CoveredFields.MarshalPisSize cf = (CoveredFields.MarshalPis cf).length) ∧
    (∀ fc : FileContract, FileContract.MarshalPisSize fc = (FileContract.MarshalPis fc).length) ∧
    (∀ fcr : FileContractRevision,
      FileContractRevision.MarshalPisSize fcr = (FileContractRevision.MarshalPis fcr).length) ∧
    (∀ uc : UnlockConditions,
      UnlockConditions.MarshalPisSize uc = (UnlockConditions.MarshalPis uc).length) ∧
    (∀ t : Transaction, (∀ sp ∈ t.StorageProofs, ∀ hs ∈ sp.HashSet, hs.length = HashSize) →
      Transaction.MarshalPisSize t = (Transaction.MarshalPis t).length) :=
  ⟨currency_size_eq, coveredFields_size_eq, fileContract_size_eq,
    fileContractRevision_size_eq, unlockConditions_size_eq,
    fun _ h => transaction_size_eq h⟩

/-- Witness for C2: size exactness evaluated at a concrete transaction with
a storage proof, discharging the hash-length hypothesis by `decide`. -/
theorem c2_size_exactness_witness :
    Transaction.MarshalPisSize sampleTx = (Transaction.MarshalPis sampleTx).length :=
  c2_size_exactness.2.2.2.2.2 sampleTx (by decide)

/-- C3: `Currency.MarshalPis` emits an 8-byte length prefix (holding the
magnitude byte count) followed by the minimal big-endian magnitude bytes:
the leading magnitude byte is never zero, the bytes carry exactly the
currency's value, and `Currency(0)` encodes as length prefix 0 followed by
no magnitude bytes. -/
theorem c3_currency_canonical_encoding :
    ∀ c : Currency,
      Currency.MarshalPis c = encU64 (natBytesBE c.i).length ++ natBytesBE c.i ∧
      beVal (natBytesBE c.i) = c.i ∧
      (natBytesBE c.i).head? ≠ some 0 ∧
      (c.i = 0 → Currency.MarshalPis c = encU64 0) :=
  fun c =>
    ⟨rfl, beVal_natBytesBE c.i, natBytesBE_head_ne_zero c.i,
      fun h => by simp [Currency.MarshalPis, h, natBytesBE_zero]⟩

/-- Witness for C3: the zero-currency clause evaluated at `Currency(0)`,
and the leading-byte clause at `Currency(256)` (magnitude bytes `[1, 0]`). -/
theorem c3_currency_canonical_encoding_witness :
    Currency.MarshalPis ⟨0⟩ = encU64 0 ∧ (natBytesBE (256 : Nat)).head? ≠ some 0 :=
  ⟨(c3_currency_canonical_encoding ⟨0⟩).2.2.2 rfl,
    (c3_currency_canonical_encoding ⟨256⟩).2.2.1⟩

/-- C9: for every Transaction, the full `MarshalPis` byte sequence equals
the internal no-signatures encoding (the nine element sequences in fixed
order, excluding signatures) followed by the 8-byte signature count and
each signature's encoding — i.e. the no-signatures encoding is a prefix of
the full encoding. -/
theorem c9_nosignatures_is_front_of_full :
    ∀ t : Transaction,
      Transaction.MarshalPis t
        = t.marshalPisNoSignatures
          ++ (encU64 t.TransactionSignatures.length
            ++ encSeq TransactionSignature.MarshalPis t.TransactionSignatures) := by
  intro t
  rw [Transaction.MarshalPis, encPrefixedSeq]

theorem copyBytes_eq_of_length {dst src : Bytes} (h : dst.length = src.length) :
    copyBytes dst src = src := by
  rw [copyBytes, h, List.take_length, ← h, List.drop_length, List.append_nil]

/-- A concrete stand-in hash used by the witnesses: every byte list hashes
to 32 bytes of value 1. -/
def constHash : Bytes → Bytes := fun _ => List.replicate 32 1

/-- C4: for every 32-byte UnlockHash, `LoadString (String uh)` succeeds and
yields exactly `uh`: `String` renders 64 hex characters of the address
followed by 12 hex characters of checksum (the first 6 bytes of the hash of
the address bytes), and `LoadString` recomputes and verifies that checksum
before copying the address into the receiver.  The statement is universal
in the checksum hash function `H` (any function producing at least 6 bytes,
all byte-valued). -/
theorem c4_unlockhash_string_roundtrip
    (H : Bytes → Bytes) (Hlen : ∀ b, UnlockHashChecksumSize ≤ (H b).length)
    (Hbytes : ∀ b, ∀ x ∈ H b, x < 256) (uh uh0 : UnlockHash)
    (h1 : uh.length = HashSize) (h2 : ∀ x ∈ uh, x < 256)
    (h0 : uh0.length = HashSize) :
    UnlockHash.LoadString H uh0 (UnlockHash.String H uh) = (uh, none) := by
  have hchk_len : ((H uh).take UnlockHashChecksumSize).length = UnlockHashChecksumSize := by
    rw [List.length_take]
    exact Nat.min_eq_left (Hlen uh)
  have huh_len : (hexOfBytes uh).length = HashSize * 2 := by
    rw [hexOfBytes_length, h1]
    ring
  have hstr_len : (UnlockHash.String H uh).length
      = HashSize * 2 + UnlockHashChecksumSize * 2 := by
    rw [UnlockHash.String, List.length_append, huh_len, hexOfBytes_length, hchk_len]
    ring
  rw [UnlockHash.LoadString, if_neg (by simp [hstr_len])]
  rw [UnlockHash.String] at hstr_len ⊢
  rw [show HashSize * 2 = (hexOfBytes uh).length from huh_len.symm]
  rw [List.take_left, List.drop_left, hexToBytes_hexOfBytes h2,
    hexToBytes_hexOfBytes (fun x hx => Hbytes uh x (List.take_subset _ _ hx))]
  simp [copyBytes_eq_of_length (show uh0.length = uh.length from by rw [h0, h1])]

/-- Witness for C4: the round trip evaluated at the all-zero address with
the concrete stand-in hash, each hypothesis discharged at that input. -/
theorem c4_unlockhash_string_roundtrip_witness :
    UnlockHash.LoadString constHash sampleHash (UnlockHash.String constHash sampleHash)
      = (sampleHash, none) :=
  c4_unlockhash_string_roundtrip constHash
    (fun b => by simp [constHash, UnlockHashChecksumSize])
    (fun b x hx => by simp [constHash] at hx; omega)
    sampleHash sampleHash (by decide)
    (fun x hx => by simp [sampleHash] at hx; omega) (by decide)

/-- C5: `UnlockHash.LoadString` rejects every input whose length differs
from 2*32 + 2*6 = 76 characters with `ErrUnlockHashWrongLen`; and every
correct-length input whose two hex portions parse but whose recomputed
checksum (over the decoded 32 address bytes) differs from the trailing
checksum portion with `ErrInvalidUnlockHashChecksum`; in both failure cases
the receiver is returned unmodified.  Universal in the hash function `H`. -/
theorem c5_unlockhash_load_errors :
    (∀ (H : Bytes → Bytes) (uh0 : UnlockHash) (s : Bytes),
      s.length ≠ HashSize * 2 + UnlockHashChecksumSize * 2 →
      UnlockHash.LoadString H uh0 s = (uh0, some .unlockHashWrongLen)) ∧
    (∀ (H : Bytes → Bytes) (uh0 : UnlockHash) (s b chk : Bytes),
      s.length = HashSize * 2 + UnlockHashChecksumSize * 2 →
      hexToBytes (s.take (HashSize * 2)) = some b →
      hexToBytes (s.drop (HashSize * 2)) = some chk →
      (H b).take UnlockHashChecksumSize ≠ chk →
      UnlockHash.LoadString H uh0 s = (uh0, some .invalidUnlockHashChecksum)) := by
  constructor
  · intro H uh0 s hlen
    rw [UnlockHash.LoadString, if_pos hlen]
  · intro H uh0 s b chk hlen hb hchk hne
    rw [UnlockHash.LoadString, if_neg (by simp [hlen]), hb, hchk]
    simp [hne]

/-- Witness for C5: the empty string is rejected as wrong-length, and a
76-character all-`'0'` string (whose decoded checksum is six zero bytes)
is rejected as an invalid checksum under the stand-in hash. -/
theorem c5_unlockhash_load_errors_witness :
    UnlockHash.LoadString constHash sampleHash [] = (sampleHash, some .unlockHashWrongLen) ∧
    UnlockHash.LoadString constHash sampleHash (List.replicate 76 48)
      = (sampleHash, some .invalidUnlockHashChecksum) :=
  ⟨c5_unlockhash_load_errors.1 constHash sampleHash [] (by decide),
    c5_unlockhash_load_errors.2 constHash sampleHash (List.replicate 76 48)
      (List.replicate 32 0) (List.replicate 6 0)
      (by decide) (by decide) (by decide) (by decide)⟩

/-- C6: for every JSON input denoting a negative number (its quote-trimmed
text parses to a negative integer), `Currency.UnmarshalJSON` reports
`ErrNegativeCurrency` and leaves the receiver holding `Currency(0)`. -/
theorem c6_negative_currency_resets_to_zero :
    ∀ (c0 : Currency) (b : Bytes) (n : Int),
      parseDec (trimQuotes b) = some n → n < 0 →
      Currency.UnmarshalJSON c0 b = (⟨0⟩, some .negativeCurrency) := by
  intro c0 b n hparse hneg
  have hnull : trimQuotes b ≠ [110, 117, 108, 108] := by
    intro hequ
    have hnone : parseDec [110, 117, 108, 108] = none := by decide
    rw [hequ, hnone] at hparse
    exact Option.noConfusion hparse
  rw [Currency.UnmarshalJSON]
  simp only [if_neg hnull, hparse, hneg, if_pos]

/-- Witness for C6: the input text `-5` parses to the negative value `-5`,
and the call returns zero with the negative-currency error. -/
theorem c6_negative_currency_resets_to_zero_witness :
    Currency.UnmarshalJSON ⟨7⟩ [45, 53] = (⟨0⟩, some .negativeCurrency) :=
  c6_negative_currency_resets_to_zero ⟨7⟩ [45, 53] (-5) (by decide) (by decide)

/-- C7 counterexample: the claim states that a specifier with no zero byte
renders all 16 bytes, but the `for i = range s` loop leaves `i` at the last
index when it never breaks, so `String` drops the final byte: on the
all-ones specifier it returns only 15 bytes. -/
theorem c7_counterexample :
    Specifier.String (List.replicate 16 1) ≠ List.replicate 16 1 := by
  decide

/-- C7 (amended): `Specifier.String` returns exactly the bytes preceding
the first zero byte whenever a zero byte exists; when no zero byte exists
it returns only the first `len - 1` (= 15 of 16) bytes, dropping the final
byte; and constructing a Specifier from the text `host` over a fresh
zero-filled value and rendering it back yields `host`. -/
theorem c7_specifier_trimming :
    (∀ pre suf : Bytes, (0 : Nat) ∉ pre →
      Specifier.String (pre ++ 0 :: suf) = pre) ∧
    (∀ s : Specifier, (0 : Nat) ∉ s →
      Specifier.String s = s.take (s.length - 1)) ∧
    Specifier.String (Specifier.UnmarshalJSON zeroSpecifier [104, 111, 115, 116])
      = [104, 111, 115, 116] := by
  refine ⟨fun pre suf h => ?_, fun s h => ?_, by decide⟩
  · rw [Specifier.String, specIdx_append_zero h, List.take_left]
  · rw [Specifier.String, specIdx_no_zero h]

/-- Witness for C7 (amended): the first clause at `host` padded with zero
bytes, the second at the all-ones specifier. -/
theorem c7_specifier_trimming_witness :
    Specifier.String ([104, 111, 115, 116] ++ 0 :: List.replicate 11 0) = [104, 111, 115, 116] ∧
    Specifier.String (List.replicate 16 1) = (List.replicate 16 1).take 15 :=
  ⟨c7_specifier_trimming.1 [104, 111, 115, 116] (List.replicate 11 0) (by decide),
    c7_specifier_trimming.2.1 (List.replicate 16 1) (by decide)⟩

/-- C8: for every input string that does not contain exactly one `:`
separator, `PisPublicKey.LoadString` returns without reporting any error
(the method has no error return) and without modifying the receiver; in
particular, calling it on a fresh zero value leaves the key empty. -/
theorem c8_pubkey_loadstring_silent :
    (∀ (spk : PisPublicKey) (s : Bytes), s.count 58 ≠ 1 →
      PisPublicKey.LoadString spk s = spk) ∧
    (∀ s : Bytes, s.count 58 ≠ 1 →
      (PisPublicKey.LoadString ⟨zeroSpecifier, []⟩ s).Key = []) := by
  have hbase : ∀ (spk : PisPublicKey) (s : Bytes), s.count 58 ≠ 1 →
      PisPublicKey.LoadString spk s = spk := by
    intro spk s h
    rw [PisPublicKey.LoadString, if_pos h]
  exact ⟨hbase, fun s h => by rw [hbase ⟨zeroSpecifier, []⟩ s h]⟩

/-- Witness for C8: the colon-free input `host` leaves both a populated and
a fresh receiver untouched. -/
theorem c8_pubkey_loadstring_silent_witness :
    PisPublicKey.LoadString sampleKey [104, 111, 115, 116] = sampleKey ∧
    (PisPublicKey.LoadString ⟨zeroSpecifier, []⟩ [104, 111, 115, 116]).Key = [] :=
  ⟨c8_pubkey_loadstring_silent.1 sampleKey [104, 111, 115, 116] (by decide),
    c8_pubkey_loadstring_silent.2 [104, 111, 115, 116] (by decide)⟩

/-- C10: `Currency.UnmarshalJSON` strips every leading and trailing quote
byte before parsing, so for every non-empty digit string the bare input,
the quoted input, and inputs with any number of surrounding quotes all
decode successfully to the same Currency value. -/
theorem c10_quote_stripping_accepts_bare_numbers :
    ∀ (c0 : Currency) (k j : Nat) (ds : Bytes), ds ≠ [] →
      (∀ d ∈ ds, 48 ≤ d ∧ d ≤ 57) →
      Currency.UnmarshalJSON c0 (List.replicate k 34 ++ (ds ++ List.replicate j 34))
        = (⟨digitsVal ds⟩, none) := by
  intro c0 k j ds hne hdig
  have h34 : ∀ c ∈ ds, c ≠ 34 := fun c hc => by have := hdig c hc; omega
  have htrim := trimQuotes_sandwich k j hne h34
  have hnull : ds ≠ [110, 117, 108, 108] := by
    intro hequ
    have := hdig 117 (by rw [hequ]; simp)
    omega
  rw [Currency.UnmarshalJSON]
  simp only [htrim, if_neg hnull, parseDec_digits hne hdig]
  rw [if_neg (by omega)]
  simp

/-- Witness for C10: the doubly-quoted digit string `""12""` (and so also
the bare and singly-quoted forms) decodes to `Currency(12)`. -/
theorem c10_quote_stripping_accepts_bare_numbers_witness :
    Currency.UnmarshalJSON ⟨0⟩
        (List.replicate 2 34 ++ ([49, 50] ++ List.replicate 2 34))
      = (⟨digitsVal [49, 50]⟩, none) :=
  c10_quote_stripping_accepts_bare_numbers ⟨0⟩ 2 2 [49, 50] (by decide) (by decide)
